import Mathlib

/-!
Verification of the OPC UA binary codec (`opcua/ua/ua_binary.py`).

The Python module is shallowly embedded: byte strings are lists of naturals
below 256, the `Buffer` cursor is represented by the list of bytes remaining
past it, machine integers are `Int`/`Nat` with explicit range checks matching
`struct.pack`, and every fallible operation returns `Option`.
-/

namespace OpcUa

/-- Wire bytes are naturals kept below 256 by every encoder. -/
abbrev Byte := Nat

/-- Little-endian decomposition of a natural into `w` bytes, as laid out by
`struct.pack` with a little-endian format character. -/
def toLE : Nat → Nat → List Byte
  | 0, _ => []
  | w + 1, v => v % 256 :: toLE w (v / 256)

/-- Little-endian recomposition of a byte list, as read by `struct.unpack`. -/
def fromLE : List Byte → Nat
  | [] => 0
  | b :: bs => b + 256 * fromLE bs

/-- Big-endian decomposition of a natural into `w` bytes
(`struct.pack` with format `>`). -/
def toBE (w v : Nat) : List Byte := (toLE w v).reverse

/-- Big-endian recomposition of a byte list. -/
def fromBE (bs : List Byte) : Nat := fromLE bs.reverse

theorem toLE_length (w v : Nat) : (toLE w v).length = w := by
  induction w generalizing v with
  | zero => rfl
  | succ w ih => simp [toLE, ih]

theorem fromLE_toLE (w v : Nat) (h : v < 256 ^ w) : fromLE (toLE w v) = v := by
  induction w generalizing v with
  | zero =>
    have : v = 0 := by
      have := h
      simpa using this
    simp [this, toLE, fromLE]
  | succ w ih =>
    have hdiv : v / 256 < 256 ^ w := by
      rw [Nat.div_lt_iff_lt_mul (by norm_num : 0 < 256)]
      calc v < 256 ^ (w + 1) := h
        _ = 256 ^ w * 256 := by ring
    simp [toLE, fromLE, ih (v / 256) hdiv]
    omega

theorem toBE_length (w v : Nat) : (toBE w v).length = w := by
  simp [toBE, toLE_length]

theorem fromBE_toBE (w v : Nat) (h : v < 256 ^ w) : fromBE (toBE w v) = v := by
  simp [toBE, fromBE, fromLE_toLE w v h]

/-- Read of `n` bytes from the stream, failing on underflow. Modelled from the
spec: the `Buffer` interface (spec section 6, `opcua.common.utils`, not part
of the sources under verification) is represented by the list of bytes
remaining past the cursor; `read` takes bytes off the front. -/
def readN (n : Nat) (bs : List Byte) : Option (List Byte × List Byte) :=
  if n ≤ bs.length then some (bs.take n, bs.drop n) else none

theorem readN_append (l r : List Byte) : readN l.length (l ++ r) = some (l, r) := by
  simp [readN, List.take_left, List.drop_left]

theorem readN_exact (n : Nat) (l r : List Byte) (h : l.length = n) :
    readN n (l ++ r) = some (l, r) := by
  subst h; exact readN_append l r

/-- Encoder for an unsigned little-endian integer of `w` bytes
(`struct.pack`), failing when the value is out of range as `struct.error`
would be raised. -/
def upack (w n : Nat) : Option (List Byte) :=
  if n < 256 ^ w then some (toLE w n) else none

/-- Decoder for an unsigned little-endian integer of `w` bytes
(`struct.unpack` after a `Buffer.read`). -/
def uunpack (w : Nat) (bs : List Byte) : Option (Nat × List Byte) := do
  let (chunk, rest) ← readN w bs
  pure (fromLE chunk, rest)

theorem uunpack_upack (w n : Nat) (e r : List Byte) (h : upack w n = some e) :
    uunpack w (e ++ r) = some (n, r) := by
  unfold upack at h
  by_cases hr : n < 256 ^ w
  · simp [hr] at h
    subst h
    simp [uunpack, readN_exact w (toLE w n) r (toLE_length w n), fromLE_toLE w n hr]
  · simp [hr] at h

/-- Encoder for a signed two-complement little-endian integer of `w` bytes
(`struct.pack`), failing outside the signed range. -/
def spack (w : Nat) (i : Int) : Option (List Byte) :=
  if -(2 ^ (8 * w - 1) : Int) ≤ i ∧ i < 2 ^ (8 * w - 1) then
    some (toLE w (i % (2 ^ (8 * w) : Int)).toNat)
  else none

/-- Decoder for a signed two-complement little-endian integer of `w` bytes. -/
def sunpack (w : Nat) (bs : List Byte) : Option (Int × List Byte) := do
  let (chunk, rest) ← readN w bs
  let u : Int := fromLE chunk
  pure (if u < 2 ^ (8 * w - 1) then u else u - 2 ^ (8 * w), rest)

theorem two_pow_eight_mul (w : Nat) : (256 : Nat) ^ w = 2 ^ (8 * w) := by
  rw [pow_mul]
  norm_num

theorem sunpack_spack (w : Nat) (hw : 0 < w) (i : Int) (e r : List Byte)
    (h : spack w i = some e) : sunpack w (e ++ r) = some (i, r) := by
  unfold spack at h
  by_cases hr : -(2 ^ (8 * w - 1) : Int) ≤ i ∧ i < 2 ^ (8 * w - 1)
  · simp only [hr, and_self, if_true, Option.some.injEq] at h
    subst h
    set m : Int := 2 ^ (8 * w) with hm
    set half : Int := 2 ^ (8 * w - 1) with hhalf
    have hmh : m = 2 * half := by
      rw [hm, hhalf]
      rw [← pow_succ']
      congr 1
      omega
    have hm0 : (0 : Int) < m := by positivity
    have hemod_nonneg : 0 ≤ i % m := Int.emod_nonneg i (by omega)
    have hemod_lt : i % m < m := Int.emod_lt_of_pos i hm0
    have htn : (((i % m).toNat : Int)) = i % m := Int.toNat_of_nonneg hemod_nonneg
    have htlt : (i % m).toNat < 256 ^ w := by
      rw [two_pow_eight_mul]
      have h2 : i % m < ((2 ^ (8 * w) : Nat) : Int) := by
        have hcast : ((2 ^ (8 * w) : Nat) : Int) = m := by rw [hm]; push_cast; ring
        rw [hcast]
        exact hemod_lt
      omega
    unfold sunpack
    rw [readN_exact w _ r (toLE_length w _)]
    simp only [Option.bind_eq_bind, Option.some_bind]
    rw [fromLE_toLE w _ htlt]
    have hchar : i % m = if 0 ≤ i then i else i + m := by
      by_cases hi : 0 ≤ i
      · simp only [hi, if_true]
        exact Int.emod_eq_of_lt hi (by omega)
      · simp only [hi, if_false]
        have h1 : (i + m) % m = i + m := Int.emod_eq_of_lt (by omega) (by omega)
        calc i % m = (i + m * 1) % m := by rw [Int.add_mul_emod_self_left]
          _ = (i + m) % m := by ring_nf
          _ = i + m := h1
    rw [htn, hchar]
    by_cases hi : 0 ≤ i
    · simp only [hi, if_true]
      have : i < half := hr.2
      simp [this]
    · simp only [hi, if_false]
      have hge : ¬(i + m < half) := by
        have : half ≤ i + m := by rw [hmh]; linarith [hr.1]
        omega
      simp only [hge, if_false]
      have heq : i + m - m = i := by ring
      rw [heq]
      rfl
  · simp [hr] at h

theorem toLE_split (m n v : Nat) :
    toLE (m + n) v = toLE m v ++ toLE n (v / 256 ^ m) := by
  induction m generalizing v with
  | zero => simp [toLE]
  | succ m ih =>
    have : m + 1 + n = (m + n) + 1 := by omega
    rw [this]
    simp only [toLE, List.cons_append, ih (v / 256)]
    congr 2
    rw [Nat.div_div_eq_div_mul]
    congr 1
    rw [pow_succ]
    ring_nf

/-!
Concrete primitive codecs of `ua_binary.Primitives1` and `Primitives`.
Each named entry mirrors one `_Primitive1(fmt)` instance or `_Primitive`
subclass. Float and Double values are represented by their IEEE-754 bit
patterns, which is exactly what the wire codec transports.
-/

def Primitives.SByte.pack (i : Int) : Option (List Byte) := spack 1 i

def Primitives.SByte.unpack (bs : List Byte) : Option (Int × List Byte) := sunpack 1 bs

def Primitives.Int16.pack (i : Int) : Option (List Byte) := spack 2 i

def Primitives.Int16.unpack (bs : List Byte) : Option (Int × List Byte) := sunpack 2 bs

def Primitives.Int32.pack (i : Int) : Option (List Byte) := spack 4 i

def Primitives.Int32.unpack (bs : List Byte) : Option (Int × List Byte) := sunpack 4 bs

def Primitives.Int64.pack (i : Int) : Option (List Byte) := spack 8 i

def Primitives.Int64.unpack (bs : List Byte) : Option (Int × List Byte) := sunpack 8 bs

def Primitives.Byte.pack (n : Nat) : Option (List Byte) := upack 1 n

def Primitives.Byte.unpack (bs : List Byte) : Option (Nat × List Byte) := uunpack 1 bs

def Primitives.UInt16.pack (n : Nat) : Option (List Byte) := upack 2 n

def Primitives.UInt16.unpack (bs : List Byte) : Option (Nat × List Byte) := uunpack 2 bs

def Primitives.UInt32.pack (n : Nat) : Option (List Byte) := upack 4 n

def Primitives.UInt32.unpack (bs : List Byte) : Option (Nat × List Byte) := uunpack 4 bs

def Primitives.UInt64.pack (n : Nat) : Option (List Byte) := upack 8 n

def Primitives.UInt64.unpack (bs : List Byte) : Option (Nat × List Byte) := uunpack 8 bs

/-- Boolean encodes as one byte, 1 for true and 0 for false
(format `<?` of `struct`). -/
def Primitives.Boolean.pack (b : Bool) : Option (List Byte) :=
  some [if b then 1 else 0]

/-- Boolean decode accepts any non-zero byte as true, matching `struct`
unpack of format `<?`. -/
def Primitives.Boolean.unpack (bs : List Byte) : Option (Bool × List Byte) :=
  match bs with
  | b :: rest => some (decide (b ≠ 0), rest)
  | [] => none

/-- Float values are carried as their 32-bit IEEE-754 bit pattern. -/
def Primitives.Float.pack (bits : Nat) : Option (List Byte) := upack 4 bits

def Primitives.Float.unpack (bs : List Byte) : Option (Nat × List Byte) := uunpack 4 bs

/-- Double values are carried as their 64-bit IEEE-754 bit pattern. -/
def Primitives.Double.pack (bits : Nat) : Option (List Byte) := upack 8 bits

def Primitives.Double.unpack (bs : List Byte) : Option (Nat × List Byte) := uunpack 8 bs

/-- Bytes encoder of `_Bytes.pack` (which delegates to `_String.pack`): an
absent value encodes as the Int32 prefix -1, otherwise an Int32 length prefix
followed by the raw bytes. Strings are represented by their UTF-8 bytes. -/
def Primitives.Bytes.pack (v : Option (List Byte)) : Option (List Byte) :=
  match v with
  | none => Primitives.Int32.pack (-1)
  | some s => do
      let pre ← Primitives.Int32.pack (s.length : Int)
      pure (pre ++ s)

/-- Bytes decoder of `_Bytes.unpack`: an Int32 length, -1 meaning absent,
otherwise that many raw bytes. A negative length other than -1 is a decode
failure (the underlying `Buffer.read` cannot produce it). -/
def Primitives.Bytes.unpack (bs : List Byte) : Option (Option (List Byte) × List Byte) := do
  let (len, rest) ← Primitives.Int32.unpack bs
  if len = -1 then pure (none, rest)
  else if len < 0 then none
  else do
    let (chunk, rest2) ← readN len.toNat rest
    pure (some chunk, rest2)

/-- String encoder of `_String.pack`; string values are modelled by their
UTF-8 byte sequences, so it coincides with the Bytes encoder. -/
def Primitives.String.pack (v : Option (List Byte)) : Option (List Byte) :=
  Primitives.Bytes.pack v

/-- String decoder of `_String.unpack`: the Bytes decoder followed by UTF-8
decoding, which on the byte-sequence representation is the identity. -/
def Primitives.String.unpack (bs : List Byte) : Option (Option (List Byte) × List Byte) :=
  Primitives.Bytes.unpack bs

/-- DateTime values are modelled by their count of 100-nanosecond ticks since
the Windows epoch. Modelled from the spec: `ua.datetime_to_win_epoch` and
`ua.win_epoch_to_datetime` (outside the verified sources) are the mutually
inverse conversions between broken-down time and that tick count
(spec section 4.2), so `_DateTime` packs the Int64 tick count. -/
def Primitives.DateTime.pack (ticks : Int) : Option (List Byte) :=
  Primitives.Int64.pack ticks

def Primitives.DateTime.unpack (bs : List Byte) : Option (Int × List Byte) :=
  Primitives.Int64.unpack bs

/-- Field representation of a Python `uuid.UUID` value as used by `_Guid`. -/
structure GuidV where
  time_low : Nat
  time_mid : Nat
  time_hi_version : Nat
  clock_seq_hi_variant : Nat
  clock_seq_low : Nat
  node : Nat
deriving DecidableEq

/-- Guid encoder of `_Guid.pack`: three little-endian fields, two single
bytes, then the six low-order bytes of `node` in big-endian order
(`struct.pack` with format `>Q` sliced to bytes 2..8). -/
def Primitives.Guid.pack (g : GuidV) : Option (List Byte) := do
  let f1 ← Primitives.UInt32.pack g.time_low
  let f2 ← Primitives.UInt16.pack g.time_mid
  let f3 ← Primitives.UInt16.pack g.time_hi_version
  let f4a ← Primitives.Byte.pack g.clock_seq_hi_variant
  let f4b ← Primitives.Byte.pack g.clock_seq_low
  let f4c ← if g.node < 256 ^ 8 then some ((toBE 8 g.node).drop 2) else none
  pure (f1 ++ f2 ++ f3 ++ f4a ++ f4b ++ f4c)

/-- Guid decoder of `_Guid.unpack`: reads the three little-endian fields and
eight raw bytes, then reassembles the `uuid.UUID` fields, whose byte layout
puts the two clock-sequence bytes first and the node in big-endian order. -/
def Primitives.Guid.unpack (bs : List Byte) : Option (GuidV × List Byte) := do
  let (f1, r1) ← uunpack 4 bs
  let (f2, r2) ← uunpack 2 r1
  let (f3, r3) ← uunpack 2 r2
  let (a, r4) ← uunpack 1 r3
  let (b, r5) ← uunpack 1 r4
  let (nb, r6) ← readN 6 r5
  pure (⟨f1, f2, f3, a, b, fromBE nb⟩, r6)

theorem Boolean_roundtrip (b : Bool) (e r : List Byte)
    (h : Primitives.Boolean.pack b = some e) :
    Primitives.Boolean.unpack (e ++ r) = some (b, r) := by
  unfold Primitives.Boolean.pack at h
  cases h
  cases b <;> simp [Primitives.Boolean.unpack]

theorem Int32_roundtrip (i : Int) (e r : List Byte)
    (h : Primitives.Int32.pack i = some e) :
    Primitives.Int32.unpack (e ++ r) = some (i, r) :=
  sunpack_spack 4 (by norm_num) i e r h

theorem Bytes_roundtrip (v : Option (List Byte)) (e r : List Byte)
    (h : Primitives.Bytes.pack v = some e) :
    Primitives.Bytes.unpack (e ++ r) = some (v, r) := by
  cases v with
  | none =>
    simp only [Primitives.Bytes.pack] at h
    unfold Primitives.Bytes.unpack
    rw [Int32_roundtrip (-1) e r h]
    simp
  | some s =>
    simp only [Primitives.Bytes.pack] at h
    cases hpre : Primitives.Int32.pack (s.length : Int) with
    | none => rw [hpre] at h; simp at h
    | some pre =>
      rw [hpre] at h
      simp only [Option.bind_eq_bind, Option.some_bind, Option.pure_def,
        Option.some.injEq] at h
      subst h
      unfold Primitives.Bytes.unpack
      rw [List.append_assoc, Int32_roundtrip (s.length : Int) pre (s ++ r) hpre]
      have h1 : ¬((s.length : Int) = -1) := by omega
      have h2 : ¬((s.length : Int) < 0) := by omega
      simp only [Option.bind_eq_bind, Option.some_bind, h1, if_false, h2]
      have h3 : ((s.length : Int)).toNat = s.length := by omega
      rw [h3, readN_exact s.length s r rfl]
      simp

theorem toBE_drop_two (v : Nat) (h : v < 256 ^ 6) :
    (toBE 8 v).drop 2 = toBE 6 v := by
  unfold toBE
  have hsplit : toLE 8 v = toLE 6 v ++ toLE 2 (v / 256 ^ 6) := toLE_split 6 2 v
  have hz : v / 256 ^ 6 = 0 := Nat.div_eq_of_lt h
  rw [hsplit, hz]
  have : toLE 2 0 = [0, 0] := rfl
  rw [this]
  simp

theorem Guid_roundtrip (g : GuidV) (e r : List Byte)
    (hnode : g.node < 256 ^ 6)
    (h : Primitives.Guid.pack g = some e) :
    Primitives.Guid.unpack (e ++ r) = some (g, r) := by
  unfold Primitives.Guid.pack at h
  cases h1 : Primitives.UInt32.pack g.time_low with
  | none => rw [h1] at h; simp at h
  | some f1 =>
  cases h2 : Primitives.UInt16.pack g.time_mid with
  | none => rw [h1, h2] at h; simp at h
  | some f2 =>
  cases h3 : Primitives.UInt16.pack g.time_hi_version with
  | none => rw [h1, h2, h3] at h; simp at h
  | some f3 =>
  cases h4 : Primitives.Byte.pack g.clock_seq_hi_variant with
  | none => rw [h1, h2, h3, h4] at h; simp at h
  | some f4a =>
  cases h5 : Primitives.Byte.pack g.clock_seq_low with
  | none => rw [h1, h2, h3, h4, h5] at h; simp at h
  | some f4b =>
  rw [h1, h2, h3, h4, h5] at h
  have hn8 : g.node < 256 ^ 8 := lt_of_lt_of_le hnode (by norm_num)
  simp only [hn8, if_true, Option.bind_eq_bind, Option.some_bind, Option.pure_def,
    Option.some.injEq] at h
  subst h
  unfold Primitives.Guid.unpack
  simp only [List.append_assoc]
  rw [uunpack_upack 4 g.time_low f1 _ h1]
  simp only [Option.bind_eq_bind, Option.some_bind]
  rw [uunpack_upack 2 g.time_mid f2 _ h2]
  simp only [Option.some_bind]
  rw [uunpack_upack 2 g.time_hi_version f3 _ h3]
  simp only [Option.some_bind]
  rw [uunpack_upack 1 g.clock_seq_hi_variant f4a _ h4]
  simp only [Option.some_bind]
  rw [uunpack_upack 1 g.clock_seq_low f4b _ h5]
  simp only [Option.some_bind]
  rw [toBE_drop_two g.node hnode]
  rw [readN_exact 6 (toBE 6 g.node) r (toBE_length 6 g.node)]
  simp [fromBE_toBE 6 g.node hnode]

/-- Generic array encoder of `_Primitive.pack_array`: an absent array encodes
as the four bytes FF FF FF FF, otherwise an Int32 length prefix followed by
the concatenated packed elements. -/
def pack_array {α : Type} (packE : α → Option (List Byte)) (arr : Option (List α)) :
    Option (List Byte) :=
  match arr with
  | none => some [255, 255, 255, 255]
  | some l => do
      let pre ← Primitives.Int32.pack (l.length : Int)
      let chunks ← l.mapM packE
      pure (pre ++ chunks.flatten)

/-- Iterated element decode, the list comprehension over `range(length)` in
`_Primitive.unpack_array`. -/
def unpackN {α : Type} (unpackE : List Byte → Option (α × List Byte)) :
    Nat → List Byte → Option (List α × List Byte)
  | 0, bs => some ([], bs)
  | n + 1, bs => do
      let (x, rest) ← unpackE bs
      let (xs, rest2) ← unpackN unpackE n rest
      pure (x :: xs, rest2)

/-- Generic array decoder of `_Primitive.unpack_array`: an Int32 length, -1
meaning absent, 0 meaning empty, otherwise that many elements. A length below
-1 falls into the element loop over an empty `range`, yielding an empty
list, exactly as the Python comprehension does. -/
def unpack_array {α : Type} (unpackE : List Byte → Option (α × List Byte)) (bs : List Byte) :
    Option (Option (List α) × List Byte) := do
  let (len, rest) ← Primitives.Int32.unpack bs
  if len = -1 then pure (none, rest)
  else if len = 0 then pure (some [], rest)
  else do
    let (l, rest2) ← unpackN unpackE len.toNat rest
    pure (some l, rest2)

theorem unpackN_mapM {α : Type} (packE : α → Option (List Byte))
    (unpackE : List Byte → Option (α × List Byte)) (l : List α)
    (chunks : List (List Byte)) (r : List Byte)
    (hmap : l.mapM packE = some chunks)
    (hE : ∀ a ∈ l, ∀ e r2, packE a = some e → unpackE (e ++ r2) = some (a, r2)) :
    unpackN unpackE l.length (chunks.flatten ++ r) = some (l, r) := by
  induction l generalizing chunks r with
  | nil =>
    simp only [List.mapM_nil, Option.pure_def, Option.some.injEq] at hmap
    subst hmap
    simp [unpackN]
  | cons x xs ih =>
    rw [List.mapM_cons] at hmap
    cases hx : packE x with
    | none => rw [hx] at hmap; simp at hmap
    | some ex =>
      rw [hx] at hmap
      cases hxs : xs.mapM packE with
      | none => rw [hxs] at hmap; simp at hmap
      | some exs =>
        rw [hxs] at hmap
        simp only [Option.bind_eq_bind, Option.some_bind, Option.pure_def,
          Option.some.injEq] at hmap
        subst hmap
        simp only [List.length_cons, unpackN, List.flatten_cons, List.append_assoc]
        rw [hE x (by simp) ex _ hx]
        simp only [Option.bind_eq_bind, Option.some_bind]
        rw [ih exs r hxs (fun a ha e r2 hp => hE a (by simp [ha]) e r2 hp)]
        simp

/-- C4 (confirmed): for any element codec whose elements round trip, the
length-prefixed array codec round trips on the absent sentinel, the empty
list and any finite list, so the -1 prefix for absence stays distinct from
the 0 prefix for emptiness. -/
theorem unpack_array_pack_array {α : Type} (packE : α → Option (List Byte))
    (unpackE : List Byte → Option (α × List Byte)) (arr : Option (List α))
    (e r : List Byte)
    (h : pack_array packE arr = some e)
    (hE : ∀ l, arr = some l → ∀ a ∈ l, ∀ eb r2, packE a = some eb →
      unpackE (eb ++ r2) = some (a, r2)) :
    unpack_array unpackE (e ++ r) = some (arr, r) := by
  cases arr with
  | none =>
    simp only [pack_array] at h
    cases h
    unfold unpack_array
    have hneg : Primitives.Int32.pack (-1) = some [255, 255, 255, 255] := by decide
    rw [Int32_roundtrip (-1) [255, 255, 255, 255] r hneg]
    simp
  | some l =>
    simp only [pack_array] at h
    cases hpre : Primitives.Int32.pack (l.length : Int) with
    | none => rw [hpre] at h; simp at h
    | some pre =>
      rw [hpre] at h
      cases hmap : l.mapM packE with
      | none => rw [hmap] at h; simp at h
      | some chunks =>
        rw [hmap] at h
        simp only [Option.bind_eq_bind, Option.some_bind, Option.pure_def,
          Option.some.injEq] at h
        subst h
        unfold unpack_array
        rw [List.append_assoc, Int32_roundtrip (l.length : Int) pre _ hpre]
        have h1 : ¬((l.length : Int) = -1) := by omega
        simp only [Option.bind_eq_bind, Option.some_bind, h1, if_false]
        by_cases hl : l = []
        · subst hl
          simp only [List.length_nil, Nat.cast_zero, if_true]
          simp only [List.mapM_nil, Option.pure_def, Option.some.injEq] at hmap
          subst hmap
          simp
        · have h2 : ¬((l.length : Int) = 0) := by
            have : l.length ≠ 0 := fun hc => hl (List.length_eq_zero.mp hc)
            omega
          simp only [h2, if_false]
          have h3 : ((l.length : Int)).toNat = l.length := by omega
          rw [h3, unpackN_mapM packE unpackE l chunks r hmap (hE l rfl)]
          simp

/-- Helper `test_bit` of `ua_binary`: the value masked with one bit, truthy
exactly when the bit is set. -/
def test_bit (data offset : Nat) : Nat := data &&& (1 <<< offset)

/-- Helper `set_bit` of `ua_binary`. -/
def set_bit (data offset : Nat) : Nat := data ||| (1 <<< offset)

/-- Enumeration `ua.NodeIdType` with its wire values 0 to 5. -/
inductive NodeIdType
  | TwoByte
  | FourByte
  | Numeric
  | String
  | Guid
  | ByteString
deriving DecidableEq

def NodeIdType.value : NodeIdType → Nat
  | .TwoByte => 0
  | .FourByte => 1
  | .Numeric => 2
  | .String => 3
  | .Guid => 4
  | .ByteString => 5

/-- Conversion of a raw tag to `ua.NodeIdType`, failing on an unknown value
as the Python enumeration constructor raises. -/
def NodeIdType.fromValue : Nat → Option NodeIdType
  | 0 => some .TwoByte
  | 1 => some .FourByte
  | 2 => some .Numeric
  | 3 => some .String
  | 4 => some .Guid
  | 5 => some .ByteString
  | _ => none

/-- Dynamically-typed identifier slot of a `ua.NodeId`. -/
inductive NodeIdentifier
  | num (n : Nat)
  | str (s : Option (List Byte))
  | guid (g : GuidV)
  | bytes (b : Option (List Byte))
deriving DecidableEq

/-- Python `ua.NodeId` (its subclass `ua.ExpandedNodeId` shares the layout).
The two suffix attributes are those set dynamically by `nodeid_from_binary`
when the flag bits are present; `none` models the attribute being absent or
`None`. Modelled from the spec where construction defaults matter: a fresh
`ua.NodeId()` has namespace index 0 and numeric identifier 0 (the null
NodeId, spec section 4.3). -/
structure NodeIdT where
  NodeIdType : NodeIdType
  NamespaceIndex : Nat
  Identifier : NodeIdentifier
  NamespaceUri : Option (List Byte) := none
  ServerIndex : Option Nat := none
deriving DecidableEq

/-- Encoder `nodeid_to_binary`. It dispatches purely on the stored
`NodeIdType` and emits that form; note that, as the FIXME in the source
records, it never sets flag bits 6 or 7 and never appends the
`NamespaceUri` or `ServerIndex` suffixes. A mismatch between the stored
type and the identifier kind is an encode failure (`struct.error`). -/
def nodeid_to_binary (nodeid : NodeIdT) : Option (List Byte) :=
  match nodeid.NodeIdType with
  | .TwoByte =>
      match nodeid.Identifier with
      | .num id => do
          let i ← upack 1 id
          pure (NodeIdType.value .TwoByte :: i)
      | _ => none
  | .FourByte =>
      match nodeid.Identifier with
      | .num id => do
          let ns ← upack 1 nodeid.NamespaceIndex
          let i ← upack 2 id
          pure (NodeIdType.value .FourByte :: (ns ++ i))
      | _ => none
  | .Numeric =>
      match nodeid.Identifier with
      | .num id => do
          let ns ← upack 2 nodeid.NamespaceIndex
          let i ← upack 4 id
          pure (NodeIdType.value .Numeric :: (ns ++ i))
      | _ => none
  | .String =>
      match nodeid.Identifier with
      | .str s => do
          let ns ← upack 2 nodeid.NamespaceIndex
          let body ← Primitives.String.pack s
          pure (NodeIdType.value .String :: (ns ++ body))
      | _ => none
  | .ByteString =>
      match nodeid.Identifier with
      | .bytes b => do
          let ns ← upack 2 nodeid.NamespaceIndex
          let body ← Primitives.Bytes.pack b
          pure (NodeIdType.value .ByteString :: (ns ++ body))
      | _ => none
  | .Guid =>
      match nodeid.Identifier with
      | .guid g => do
          let ns ← upack 2 nodeid.NamespaceIndex
          let body ← Primitives.Guid.pack g
          pure (NodeIdType.value .Guid :: (ns ++ body))
      | _ => none

/-- Decoder `nodeid_from_binary`: a leading byte whose low 6 bits give the
form and whose bits 7 and 6 signal a `NamespaceUri` and a `ServerIndex`
suffix, then the form body. -/
def nodeid_from_binary (data : List Byte) : Option (NodeIdT × List Byte) := do
  let (eb, d1) ← readN 1 data
  let encoding := fromLE eb
  let ntype ← NodeIdType.fromValue (encoding &&& 63)
  let (nid, d2) ← (match ntype with
    | NodeIdType.TwoByte => do
        let (id, d2) ← uunpack 1 d1
        pure ((⟨NodeIdType.TwoByte, 0, NodeIdentifier.num id, none, none⟩ : NodeIdT), d2)
    | NodeIdType.FourByte => do
        let (ns, da) ← uunpack 1 d1
        let (id, d2) ← uunpack 2 da
        pure ((⟨NodeIdType.FourByte, ns, NodeIdentifier.num id, none, none⟩ : NodeIdT), d2)
    | NodeIdType.Numeric => do
        let (ns, da) ← uunpack 2 d1
        let (id, d2) ← uunpack 4 da
        pure ((⟨NodeIdType.Numeric, ns, NodeIdentifier.num id, none, none⟩ : NodeIdT), d2)
    | NodeIdType.String => do
        let (ns, da) ← uunpack 2 d1
        let (s, d2) ← Primitives.String.unpack da
        pure ((⟨NodeIdType.String, ns, NodeIdentifier.str s, none, none⟩ : NodeIdT), d2)
    | NodeIdType.ByteString => do
        let (ns, da) ← uunpack 2 d1
        let (b, d2) ← Primitives.Bytes.unpack da
        pure ((⟨NodeIdType.ByteString, ns, NodeIdentifier.bytes b, none, none⟩ : NodeIdT), d2)
    | NodeIdType.Guid => do
        let (ns, da) ← uunpack 2 d1
        let (g, d2) ← Primitives.Guid.unpack da
        pure ((⟨NodeIdType.Guid, ns, NodeIdentifier.guid g, none, none⟩ : NodeIdT), d2))
  let (uri, d3) ←
    (if test_bit encoding 7 ≠ 0 then do
        let (s, d) ← Primitives.String.unpack d2
        pure (s, d)
      else pure (none, d2) : Option (Option (List Byte) × List Byte))
  let (srv, d4) ←
    (if test_bit encoding 6 ≠ 0 then do
        let (v, d) ← uunpack 4 d3
        pure (some v, d)
      else pure (none, d3) : Option (Option Nat × List Byte))
  pure ({ nid with NamespaceUri := uri, ServerIndex := srv }, d4)

theorem readN_one (b : Byte) (bs : List Byte) : readN 1 (b :: bs) = some ([b], bs) := by
  simp [readN]

theorem fromLE_one (b : Byte) : fromLE [b] = b := by
  simp [fromLE]

theorem String_roundtrip (v : Option (List Byte)) (e r : List Byte)
    (h : Primitives.String.pack v = some e) :
    Primitives.String.unpack (e ++ r) = some (v, r) := Bytes_roundtrip v e r h

/-- Round trip of the NodeId codec for values carrying no suffix attributes.
The namespace restriction in the TwoByte case reflects that this form does
not transport a namespace index, and the node bound mirrors the `uuid.UUID`
class invariant. -/
theorem nodeid_roundtrip (n : NodeIdT) (e r : List Byte)
    (huri : n.NamespaceUri = none) (hsrv : n.ServerIndex = none)
    (htb : n.NodeIdType = NodeIdType.TwoByte → n.NamespaceIndex = 0)
    (hguid : ∀ g, n.Identifier = NodeIdentifier.guid g → g.node < 256 ^ 6)
    (h : nodeid_to_binary n = some e) :
    nodeid_from_binary (e ++ r) = some (n, r) := by
  obtain ⟨t, nsi, idf, u, s⟩ := n
  obtain rfl : u = none := huri
  obtain rfl : s = none := hsrv
  cases t with
  | TwoByte =>
    cases idf with
    | num id =>
      simp only [nodeid_to_binary] at h
      cases hid : upack 1 id with
      | none => rw [hid] at h; simp at h
      | some ib =>
        rw [hid] at h
        simp only [Option.bind_eq_bind, Option.some_bind, Option.pure_def,
          Option.some.injEq] at h
        subst h
        obtain rfl : nsi = 0 := htb rfl
        simp [nodeid_from_binary, NodeIdType.value, NodeIdType.fromValue, readN_one, fromLE_one,
          (by decide : NodeIdType.fromValue (0 &&& 63) = some NodeIdType.TwoByte),
          uunpack_upack 1 id ib r hid,
          (by decide : test_bit 0 7 = 0), (by decide : test_bit 0 6 = 0)]
    | str sv => simp [nodeid_to_binary] at h
    | guid g => simp [nodeid_to_binary] at h
    | bytes b => simp [nodeid_to_binary] at h
  | FourByte =>
    cases idf with
    | num id =>
      simp only [nodeid_to_binary] at h
      cases hns : upack 1 nsi with
      | none => rw [hns] at h; simp at h
      | some nsb =>
      cases hid : upack 2 id with
      | none => rw [hns, hid] at h; simp at h
      | some ib =>
        rw [hns, hid] at h
        simp only [Option.bind_eq_bind, Option.some_bind, Option.pure_def,
          Option.some.injEq] at h
        subst h
        simp [nodeid_from_binary, NodeIdType.value, NodeIdType.fromValue, readN_one, fromLE_one,
          List.append_assoc,
          (by decide : NodeIdType.fromValue (1 &&& 63) = some NodeIdType.FourByte),
          uunpack_upack 1 nsi nsb (ib ++ r) hns,
          uunpack_upack 2 id ib r hid,
          (by decide : test_bit 1 7 = 0), (by decide : test_bit 1 6 = 0)]
    | str sv => simp [nodeid_to_binary] at h
    | guid g => simp [nodeid_to_binary] at h
    | bytes b => simp [nodeid_to_binary] at h
  | Numeric =>
    cases idf with
    | num id =>
      simp only [nodeid_to_binary] at h
      cases hns : upack 2 nsi with
      | none => rw [hns] at h; simp at h
      | some nsb =>
      cases hid : upack 4 id with
      | none => rw [hns, hid] at h; simp at h
      | some ib =>
        rw [hns, hid] at h
        simp only [Option.bind_eq_bind, Option.some_bind, Option.pure_def,
          Option.some.injEq] at h
        subst h
        simp [nodeid_from_binary, NodeIdType.value, NodeIdType.fromValue, readN_one, fromLE_one,
          List.append_assoc,
          (by decide : NodeIdType.fromValue (2 &&& 63) = some NodeIdType.Numeric),
          uunpack_upack 2 nsi nsb (ib ++ r) hns,
          uunpack_upack 4 id ib r hid,
          (by decide : test_bit 2 7 = 0), (by decide : test_bit 2 6 = 0)]
    | str sv => simp [nodeid_to_binary] at h
    | guid g => simp [nodeid_to_binary] at h
    | bytes b => simp [nodeid_to_binary] at h
  | String =>
    cases idf with
    | str sv =>
      simp only [nodeid_to_binary] at h
      cases hns : upack 2 nsi with
      | none => rw [hns] at h; simp at h
      | some nsb =>
      cases hbody : Primitives.String.pack sv with
      | none => rw [hns, hbody] at h; simp at h
      | some body =>
        rw [hns, hbody] at h
        simp only [Option.bind_eq_bind, Option.some_bind, Option.pure_def,
          Option.some.injEq] at h
        subst h
        simp [nodeid_from_binary, NodeIdType.value, NodeIdType.fromValue, readN_one, fromLE_one,
          List.append_assoc,
          (by decide : NodeIdType.fromValue (3 &&& 63) = some NodeIdType.String),
          uunpack_upack 2 nsi nsb (body ++ r) hns,
          String_roundtrip sv body r hbody,
          (by decide : test_bit 3 7 = 0), (by decide : test_bit 3 6 = 0)]
    | num id => simp [nodeid_to_binary] at h
    | guid g => simp [nodeid_to_binary] at h
    | bytes b => simp [nodeid_to_binary] at h
  | Guid =>
    cases idf with
    | guid g =>
      simp only [nodeid_to_binary] at h
      cases hns : upack 2 nsi with
      | none => rw [hns] at h; simp at h
      | some nsb =>
      cases hbody : Primitives.Guid.pack g with
      | none => rw [hns, hbody] at h; simp at h
      | some body =>
        rw [hns, hbody] at h
        simp only [Option.bind_eq_bind, Option.some_bind, Option.pure_def,
          Option.some.injEq] at h
        subst h
        simp [nodeid_from_binary, NodeIdType.value, NodeIdType.fromValue, readN_one, fromLE_one,
          List.append_assoc,
          (by decide : NodeIdType.fromValue (4 &&& 63) = some NodeIdType.Guid),
          uunpack_upack 2 nsi nsb (body ++ r) hns,
          Guid_roundtrip g body r (hguid g rfl) hbody,
          (by decide : test_bit 4 7 = 0), (by decide : test_bit 4 6 = 0)]
    | num id => simp [nodeid_to_binary] at h
    | str sv => simp [nodeid_to_binary] at h
    | bytes b => simp [nodeid_to_binary] at h
  | ByteString =>
    cases idf with
    | bytes bv =>
      simp only [nodeid_to_binary] at h
      cases hns : upack 2 nsi with
      | none => rw [hns] at h; simp at h
      | some nsb =>
      cases hbody : Primitives.Bytes.pack bv with
      | none => rw [hns, hbody] at h; simp at h
      | some body =>
        rw [hns, hbody] at h
        simp only [Option.bind_eq_bind, Option.some_bind, Option.pure_def,
          Option.some.injEq] at h
        subst h
        simp [nodeid_from_binary, NodeIdType.value, NodeIdType.fromValue, readN_one, fromLE_one,
          List.append_assoc,
          (by decide : NodeIdType.fromValue (5 &&& 63) = some NodeIdType.ByteString),
          uunpack_upack 2 nsi nsb (body ++ r) hns,
          Bytes_roundtrip bv body r hbody,
          (by decide : test_bit 5 7 = 0), (by decide : test_bit 5 6 = 0)]
    | num id => simp [nodeid_to_binary] at h
    | str sv => simp [nodeid_to_binary] at h
    | guid g => simp [nodeid_to_binary] at h

/-- Builtin tags of `ua.VariantType` whose codecs live in the primitive,
builtin, and NodeId layers of `ua_binary`. The structure-backed tags
(XmlElement 16 and 19 to 25) and the custom blob tags above 25 dispatch to
classes defined outside the verified sources and are outside this
embedding. -/
inductive VariantType
  | Null
  | Boolean
  | SByte
  | Byte
  | Int16
  | UInt16
  | Int32
  | UInt32
  | Int64
  | UInt64
  | Float
  | Double
  | String
  | DateTime
  | Guid
  | ByteString
  | NodeId
  | ExpandedNodeId
deriving DecidableEq

def VariantType.value : VariantType → Nat
  | .Null => 0
  | .Boolean => 1
  | .SByte => 2
  | .Byte => 3
  | .Int16 => 4
  | .UInt16 => 5
  | .Int32 => 6
  | .UInt32 => 7
  | .Int64 => 8
  | .UInt64 => 9
  | .Float => 10
  | .Double => 11
  | .String => 12
  | .DateTime => 13
  | .Guid => 14
  | .ByteString => 15
  | .NodeId => 17
  | .ExpandedNodeId => 18

/-- Modelled from the spec: `ua.datatype_to_varianttype` (outside the
verified sources) maps a wire tag at or below 25 to the enumeration member
of that value (spec section 4.4). Tags of the unmodelled structure layer
fall outside this embedding and are decode failures here. -/
def datatype_to_varianttype : Nat → Option VariantType
  | 0 => some .Null
  | 1 => some .Boolean
  | 2 => some .SByte
  | 3 => some .Byte
  | 4 => some .Int16
  | 5 => some .UInt16
  | 6 => some .Int32
  | 7 => some .UInt32
  | 8 => some .Int64
  | 9 => some .UInt64
  | 10 => some .Float
  | 11 => some .Double
  | 12 => some .String
  | 13 => some .DateTime
  | 14 => some .Guid
  | 15 => some .ByteString
  | 17 => some .NodeId
  | 18 => some .ExpandedNodeId
  | _ => none

/-- Scalar Python values moved by the modelled codec layers. Strings carry
their UTF-8 bytes; floats carry their IEEE-754 bit patterns; datetimes carry
their Windows-epoch tick count. -/
inductive Scalar
  | boolean (b : Bool)
  | sbyte (i : Int)
  | byte (n : Nat)
  | int16 (i : Int)
  | uint16 (n : Nat)
  | int32 (i : Int)
  | uint32 (n : Nat)
  | int64 (i : Int)
  | uint64 (n : Nat)
  | float (bits : Nat)
  | double (bits : Nat)
  | str (s : List Byte)
  | datetime (ticks : Int)
  | guid (g : GuidV)
  | bytes (b : List Byte)
  | nodeid (n : NodeIdT)

/-- Python values as stored in Variant values and object attributes:
`PyVal.none` is the Python `None`, `PyVal.list` a Python list. -/
inductive PyVal
  | none
  | scalar (s : Scalar)
  | list (l : List PyVal)

/-- Element encoder dispatch of `pack_uatype` restricted to the modelled
tags: the `hasattr(Primitives, ...)` branch for the primitive names and the
NodeId branch for the two NodeId tags. An operand whose kind does not match
the tag is an encode failure (Python raises from `struct.pack`; implicit
truthiness coercions of mismatched operands are not modelled). -/
def pack_uatype : VariantType → PyVal → Option (List Byte)
  | .Null, _ => some []
  | .Boolean, .scalar (.boolean b) => Primitives.Boolean.pack b
  | .SByte, .scalar (.sbyte i) => Primitives.SByte.pack i
  | .Byte, .scalar (.byte n) => Primitives.Byte.pack n
  | .Int16, .scalar (.int16 i) => Primitives.Int16.pack i
  | .UInt16, .scalar (.uint16 n) => Primitives.UInt16.pack n
  | .Int32, .scalar (.int32 i) => Primitives.Int32.pack i
  | .UInt32, .scalar (.uint32 n) => Primitives.UInt32.pack n
  | .Int64, .scalar (.int64 i) => Primitives.Int64.pack i
  | .UInt64, .scalar (.uint64 n) => Primitives.UInt64.pack n
  | .Float, .scalar (.float bits) => Primitives.Float.pack bits
  | .Double, .scalar (.double bits) => Primitives.Double.pack bits
  | .String, .scalar (.str s) => Primitives.String.pack (some s)
  | .String, .none => Primitives.String.pack Option.none
  | .DateTime, .scalar (.datetime t) => Primitives.DateTime.pack t
  | .Guid, .scalar (.guid g) => Primitives.Guid.pack g
  | .ByteString, .scalar (.bytes b) => Primitives.Bytes.pack (some b)
  | .ByteString, .none => Primitives.Bytes.pack Option.none
  | .NodeId, .scalar (.nodeid n) => nodeid_to_binary n
  | .ExpandedNodeId, .scalar (.nodeid n) => nodeid_to_binary n
  | _, _ => Option.none

/-- Element decoder dispatch of `unpack_uatype` restricted to the modelled
tags. An absent string or byte string decodes to the Python `None`. -/
def unpack_uatype : VariantType → List Byte → Option (PyVal × List Byte)
  | .Null, bs => some (.none, bs)
  | .Boolean, bs => do
      let (b, r) ← Primitives.Boolean.unpack bs
      pure (.scalar (.boolean b), r)
  | .SByte, bs => do
      let (i, r) ← Primitives.SByte.unpack bs
      pure (.scalar (.sbyte i), r)
  | .Byte, bs => do
      let (n, r) ← Primitives.Byte.unpack bs
      pure (.scalar (.byte n), r)
  | .Int16, bs => do
      let (i, r) ← Primitives.Int16.unpack bs
      pure (.scalar (.int16 i), r)
  | .UInt16, bs => do
      let (n, r) ← Primitives.UInt16.unpack bs
      pure (.scalar (.uint16 n), r)
  | .Int32, bs => do
      let (i, r) ← Primitives.Int32.unpack bs
      pure (.scalar (.int32 i), r)
  | .UInt32, bs => do
      let (n, r) ← Primitives.UInt32.unpack bs
      pure (.scalar (.uint32 n), r)
  | .Int64, bs => do
      let (i, r) ← Primitives.Int64.unpack bs
      pure (.scalar (.int64 i), r)
  | .UInt64, bs => do
      let (n, r) ← Primitives.UInt64.unpack bs
      pure (.scalar (.uint64 n), r)
  | .Float, bs => do
      let (bits, r) ← Primitives.Float.unpack bs
      pure (.scalar (.float bits), r)
  | .Double, bs => do
      let (bits, r) ← Primitives.Double.unpack bs
      pure (.scalar (.double bits), r)
  | .String, bs => do
      let (s, r) ← Primitives.String.unpack bs
      pure ((match s with
        | Option.none => PyVal.none
        | some s2 => PyVal.scalar (.str s2)), r)
  | .DateTime, bs => do
      let (t, r) ← Primitives.DateTime.unpack bs
      pure (.scalar (.datetime t), r)
  | .Guid, bs => do
      let (g, r) ← Primitives.Guid.unpack bs
      pure (.scalar (.guid g), r)
  | .ByteString, bs => do
      let (b, r) ← Primitives.Bytes.unpack bs
      pure ((match b with
        | Option.none => PyVal.none
        | some b2 => PyVal.scalar (.bytes b2)), r)
  | .NodeId, bs => do
      let (n, r) ← nodeid_from_binary bs
      pure (.scalar (.nodeid n), r)
  | .ExpandedNodeId, bs => do
      let (n, r) ← nodeid_from_binary bs
      pure (.scalar (.nodeid n), r)

/-- NodeId values that the encoder can transport faithfully: no suffix
attributes (the encoder never emits them), a zero namespace in the TwoByte
form (which carries none), and the `uuid.UUID` node invariant for Guid
identifiers. -/
def NoSuffix (n : NodeIdT) : Prop :=
  n.NamespaceUri = Option.none ∧ n.ServerIndex = Option.none ∧
    (n.NodeIdType = NodeIdType.TwoByte → n.NamespaceIndex = 0) ∧
    (∀ g, n.Identifier = NodeIdentifier.guid g → g.node < 256 ^ 6)

/-- Scalar well-formedness for a tag: the operand has the kind the tag
dispatches on, in the decoder canonical representation. -/
def WFVal : VariantType → PyVal → Prop
  | .Null, v => v = PyVal.none
  | .Boolean, v => ∃ b, v = PyVal.scalar (.boolean b)
  | .SByte, v => ∃ i, v = PyVal.scalar (.sbyte i)
  | .Byte, v => ∃ n, v = PyVal.scalar (.byte n)
  | .Int16, v => ∃ i, v = PyVal.scalar (.int16 i)
  | .UInt16, v => ∃ n, v = PyVal.scalar (.uint16 n)
  | .Int32, v => ∃ i, v = PyVal.scalar (.int32 i)
  | .UInt32, v => ∃ n, v = PyVal.scalar (.uint32 n)
  | .Int64, v => ∃ i, v = PyVal.scalar (.int64 i)
  | .UInt64, v => ∃ n, v = PyVal.scalar (.uint64 n)
  | .Float, v => ∃ bits, v = PyVal.scalar (.float bits)
  | .Double, v => ∃ bits, v = PyVal.scalar (.double bits)
  | .String, v => v = PyVal.none ∨ ∃ s, v = PyVal.scalar (.str s)
  | .DateTime, v => ∃ t, v = PyVal.scalar (.datetime t)
  | .Guid, v => ∃ g, v = PyVal.scalar (.guid g) ∧ g.node < 256 ^ 6
  | .ByteString, v => v = PyVal.none ∨ ∃ b, v = PyVal.scalar (.bytes b)
  | .NodeId, v => ∃ n, v = PyVal.scalar (.nodeid n) ∧ NoSuffix n
  | .ExpandedNodeId, v => ∃ n, v = PyVal.scalar (.nodeid n) ∧ NoSuffix n

theorem unpack_pack_uatype (vt : VariantType) (v : PyVal) (e r : List Byte)
    (hwf : WFVal vt v) (h : pack_uatype vt v = some e) :
    unpack_uatype vt (e ++ r) = some (v, r) := by
  cases vt with
  | Null =>
    obtain rfl : v = PyVal.none := hwf
    simp only [pack_uatype, Option.some.injEq] at h
    subst h
    simp [unpack_uatype]
  | Boolean =>
    obtain ⟨b, rfl⟩ := hwf
    simp only [pack_uatype] at h
    simp [unpack_uatype, Boolean_roundtrip b e r h]
  | SByte =>
    obtain ⟨i, rfl⟩ := hwf
    simp only [pack_uatype] at h
    simp [unpack_uatype, Primitives.SByte.unpack,
      sunpack_spack 1 (by norm_num) i e r h]
  | Byte =>
    obtain ⟨n, rfl⟩ := hwf
    simp only [pack_uatype] at h
    simp [unpack_uatype, Primitives.Byte.unpack, uunpack_upack 1 n e r h]
  | Int16 =>
    obtain ⟨i, rfl⟩ := hwf
    simp only [pack_uatype] at h
    simp [unpack_uatype, Primitives.Int16.unpack,
      sunpack_spack 2 (by norm_num) i e r h]
  | UInt16 =>
    obtain ⟨n, rfl⟩ := hwf
    simp only [pack_uatype] at h
    simp [unpack_uatype, Primitives.UInt16.unpack, uunpack_upack 2 n e r h]
  | Int32 =>
    obtain ⟨i, rfl⟩ := hwf
    simp only [pack_uatype] at h
    simp [unpack_uatype, Int32_roundtrip i e r h]
  | UInt32 =>
    obtain ⟨n, rfl⟩ := hwf
    simp only [pack_uatype] at h
    simp [unpack_uatype, Primitives.UInt32.unpack, uunpack_upack 4 n e r h]
  | Int64 =>
    obtain ⟨i, rfl⟩ := hwf
    simp only [pack_uatype] at h
    simp [unpack_uatype, Primitives.Int64.unpack,
      sunpack_spack 8 (by norm_num) i e r h]
  | UInt64 =>
    obtain ⟨n, rfl⟩ := hwf
    simp only [pack_uatype] at h
    simp [unpack_uatype, Primitives.UInt64.unpack, uunpack_upack 8 n e r h]
  | Float =>
    obtain ⟨bits, rfl⟩ := hwf
    simp only [pack_uatype] at h
    simp [unpack_uatype, Primitives.Float.unpack, Primitives.Float.pack,
      uunpack_upack 4 bits e r h]
  | Double =>
    obtain ⟨bits, rfl⟩ := hwf
    simp only [pack_uatype] at h
    simp [unpack_uatype, Primitives.Double.unpack, Primitives.Double.pack,
      uunpack_upack 8 bits e r h]
  | String =>
    rcases hwf with rfl | ⟨sv, rfl⟩
    · simp only [pack_uatype] at h
      simp [unpack_uatype, String_roundtrip Option.none e r h]
    · simp only [pack_uatype] at h
      simp [unpack_uatype, String_roundtrip (some sv) e r h]
  | DateTime =>
    obtain ⟨t, rfl⟩ := hwf
    simp only [pack_uatype] at h
    simp [unpack_uatype, Primitives.DateTime.unpack, Primitives.Int64.unpack,
      sunpack_spack 8 (by norm_num) t e r h]
  | Guid =>
    obtain ⟨g, rfl, hg⟩ := hwf
    simp only [pack_uatype] at h
    simp [unpack_uatype, Guid_roundtrip g e r hg h]
  | ByteString =>
    rcases hwf with rfl | ⟨bv, rfl⟩
    · simp only [pack_uatype] at h
      simp [unpack_uatype, Bytes_roundtrip Option.none e r h]
    · simp only [pack_uatype] at h
      simp [unpack_uatype, Bytes_roundtrip (some bv) e r h]
  | NodeId =>
    obtain ⟨n, rfl, h1, h2, h3, h4⟩ := hwf
    simp only [pack_uatype] at h
    simp [unpack_uatype, nodeid_roundtrip n e r h1 h2 h3 h4 h]
  | ExpandedNodeId =>
    obtain ⟨n, rfl, h1, h2, h3, h4⟩ := hwf
    simp only [pack_uatype] at h
    simp [unpack_uatype, nodeid_roundtrip n e r h1 h2 h3 h4 h]

mutual

/-- Deep flattening of nested Python lists into their leaves. Modelled from
the spec: a Variant with `is_array` encodes its values as a flat sequence
with structure carried separately (spec section 3); `ua.flatten` (outside
the verified sources) concatenates nested lists, which on the rectangular
shapes the codec is applied to is this full flattening. -/
def flatLeaves : PyVal → List PyVal
  | .list l => flatLeavesList l
  | .none => [.none]
  | .scalar s => [.scalar s]

def flatLeavesList : List PyVal → List PyVal
  | [] => []
  | v :: vs => flatLeaves v ++ flatLeavesList vs

end

/-- Flattening of a Variant value: the Python `None` stays `None`, a list is
deep-flattened. -/
def flatten : PyVal → PyVal
  | .none => .none
  | .list l => .list (flatLeavesList l)
  | .scalar s => .scalar s

/-- Array encoder `pack_uatype_array`: an absent array encodes as the four
bytes FF FF FF FF, otherwise an Int32 length prefix followed by the packed
elements. A non-list operand is an encode failure (`len` raises). -/
def pack_uatype_array (vtype : VariantType) (array : PyVal) : Option (List Byte) :=
  match array with
  | .none => some [255, 255, 255, 255]
  | .list l => do
      let pre ← Primitives.Int32.pack (l.length : Int)
      let chunks ← l.mapM (pack_uatype vtype)
      pure (pre ++ chunks.flatten)
  | .scalar _ => Option.none

/-- Array decoder `unpack_uatype_array`: an Int32 length, -1 meaning the
Python `None`, otherwise that many elements. For primitive tags the source
goes through `_Primitive.unpack_array`, whose separate empty case at length
0 coincides with the zero-iteration loop of the general branch; a length
below -1 iterates an empty `range` in both paths, yielding an empty list. -/
def unpack_uatype_array (vtype : VariantType) (bs : List Byte) :
    Option (PyVal × List Byte) := do
  let (len, rest) ← Primitives.Int32.unpack bs
  if len = -1 then pure (PyVal.none, rest)
  else do
    let (l, rest2) ← unpackN (unpack_uatype vtype) len.toNat rest
    pure (PyVal.list l, rest2)

theorem unpack_pack_uatype_array (vt : VariantType) (arr : PyVal) (e r : List Byte)
    (harr : arr = PyVal.none ∨ ∃ l, arr = PyVal.list l ∧ ∀ x ∈ l, WFVal vt x)
    (h : pack_uatype_array vt arr = some e) :
    unpack_uatype_array vt (e ++ r) = some (arr, r) := by
  rcases harr with rfl | ⟨l, rfl, hwf⟩
  · simp only [pack_uatype_array, Option.some.injEq] at h
    subst h
    unfold unpack_uatype_array
    have hneg : Primitives.Int32.pack (-1) = some [255, 255, 255, 255] := by decide
    rw [Int32_roundtrip (-1) [255, 255, 255, 255] r hneg]
    simp
  · simp only [pack_uatype_array] at h
    cases hpre : Primitives.Int32.pack (l.length : Int) with
    | none => rw [hpre] at h; simp at h
    | some pre =>
      rw [hpre] at h
      cases hmap : l.mapM (pack_uatype vt) with
      | none => rw [hmap] at h; simp at h
      | some chunks =>
        rw [hmap] at h
        simp only [Option.bind_eq_bind, Option.some_bind, Option.pure_def,
          Option.some.injEq] at h
        subst h
        unfold unpack_uatype_array
        rw [List.append_assoc, Int32_roundtrip (l.length : Int) pre _ hpre]
        have h1 : ¬((l.length : Int) = -1) := by omega
        simp only [Option.bind_eq_bind, Option.some_bind, h1, if_false]
        have h3 : ((l.length : Int)).toNat = l.length := by omega
        rw [h3, unpackN_mapM (pack_uatype vt) (unpack_uatype vt) l chunks r hmap
          (fun a ha eb r2 hp => unpack_pack_uatype vt a eb r2 (hwf a ha) hp)]
        simp

/-- Python `ua.Variant`. Modelled from the spec where construction matters:
`ua.Variant(value, vtype, dimensions, is_array)` (outside the verified
sources) stores its four attributes as given (spec section 3). -/
structure Variant where
  VariantType : VariantType
  Value : PyVal
  Dimensions : Option (List Int)
  is_array : Bool

/-- Truthiness of `isinstance(value, (list, tuple))`. -/
def isList : PyVal → Bool
  | .list _ => true
  | _ => false

/-- Stride computation of `_reshape`: the product of the remaining
dimensions, zeros counted as one. -/
def subsizeOf (subdims : List Int) : Int :=
  subdims.foldl (fun acc i => acc * (if i = 0 then 1 else i)) 1

/-- Chunking of the flat list at stride `k`: the slices `flat[i : i + k]`
for `i` in `range(0, len(flat), k)` with a positive step. -/
def chunkBy {α : Type} (k : Nat) : List α → List (List α)
  | [] => []
  | x :: xs =>
    if _hk : k = 0 then []
    else (x :: xs).take k :: chunkBy k ((x :: xs).drop k)
  termination_by l => l.length
  decreasing_by
    simp only [List.length_drop, List.length_cons]
    omega

mutual

/-- Reshaping of `_reshape`: pad the flat list with empty lists while
`dims[0] * subsize` exceeds its length, then return it if no grouping
remains, otherwise group into stride-sized chunks reshaped recursively.
An empty dims list is a failure (`dims[0]` raises IndexError); a negative
stride makes the Python `range` empty. -/
def _reshape (flat : List PyVal) : List Int → Option (List PyVal)
  | [] => Option.none
  | d :: subdims =>
      let subsize := subsizeOf subdims
      let padded :=
        if d * subsize > (flat.length : Int)
        then flat ++ List.replicate ((d * subsize - (flat.length : Int)).toNat) (PyVal.list [])
        else flat
      if subdims = [] ∨ subdims = [0] then some padded
      else
        if subsize ≤ 0 then some []
        else reshapeChunks (chunkBy subsize.toNat padded) subdims

def reshapeChunks : List (List PyVal) → List Int → Option (List PyVal)
  | [], _ => some []
  | c :: cs, subdims => do
      let rc ← _reshape c subdims
      let rcs ← reshapeChunks cs subdims
      pure (PyVal.list rc :: rcs)

end

/-- Extraction of the Python list of ints produced by decoding the Int32
dimensions array; any other shape makes the subsequent `_reshape` raise. -/
def pyToIntList : PyVal → Option (List Int)
  | .list l => l.mapM (fun v => match v with
      | PyVal.scalar (.int32 i) => some i
      | _ => Option.none)
  | _ => Option.none

/-- Encoder `variant_to_binary`. The result carries the possibly updated
variant alongside the bytes because the source assigns `var.is_array = True`
in the array branch before encoding. -/
def variant_to_binary (var : Variant) : Option (Variant × List Byte) :=
  let encoding := var.VariantType.value &&& 63
  if var.is_array || isList var.Value then
    let var2 := { var with is_array := true }
    match var.Dimensions with
    | some dims => do
        let eb ← Primitives.Byte.pack (set_bit (set_bit encoding 7) 6)
        let body ← pack_uatype_array var.VariantType (flatten var.Value)
        let dimsb ← pack_uatype_array VariantType.Int32
          (PyVal.list (dims.map (fun d => PyVal.scalar (Scalar.int32 d))))
        pure (var2, eb ++ body ++ dimsb)
    | Option.none => do
        let eb ← Primitives.Byte.pack (set_bit encoding 7)
        let body ← pack_uatype_array var.VariantType (flatten var.Value)
        pure (var2, eb ++ body)
  else do
    let eb ← Primitives.Byte.pack encoding
    let body ← pack_uatype var.VariantType var.Value
    pure (var, eb ++ body)

/-- Decoder `variant_from_binary`. -/
def variant_from_binary (data : List Byte) : Option (Variant × List Byte) := do
  let (ebs, d1) ← readN 1 data
  let encoding := fromLE ebs
  let int_type := encoding &&& 63
  let vtype ← datatype_to_varianttype int_type
  let arrFlag : Bool := test_bit encoding 7 != 0
  let (value, d2) ← if arrFlag then unpack_uatype_array vtype d1 else unpack_uatype vtype d1
  if test_bit encoding 6 != 0 then do
    let (dimsPy, d3) ← unpack_uatype_array VariantType.Int32 d2
    let dims ← pyToIntList dimsPy
    let value2 ← (match value with
      | PyVal.list fl => do
          let rl ← _reshape fl dims
          pure (PyVal.list rl)
      | _ => Option.none)
    pure (⟨vtype, value2, some dims, arrFlag⟩, d3)
  else
    pure (⟨vtype, value, Option.none, arrFlag⟩, d2)

theorem WFVal_not_list (vt : VariantType) (x : PyVal) (h : WFVal vt x) :
    isList x = false := by
  cases vt with
  | Null => obtain rfl := h; rfl
  | Boolean => obtain ⟨b, rfl⟩ := h; rfl
  | SByte => obtain ⟨i, rfl⟩ := h; rfl
  | Byte => obtain ⟨n, rfl⟩ := h; rfl
  | Int16 => obtain ⟨i, rfl⟩ := h; rfl
  | UInt16 => obtain ⟨n, rfl⟩ := h; rfl
  | Int32 => obtain ⟨i, rfl⟩ := h; rfl
  | UInt32 => obtain ⟨n, rfl⟩ := h; rfl
  | Int64 => obtain ⟨i, rfl⟩ := h; rfl
  | UInt64 => obtain ⟨n, rfl⟩ := h; rfl
  | Float => obtain ⟨b, rfl⟩ := h; rfl
  | Double => obtain ⟨b, rfl⟩ := h; rfl
  | String => rcases h with rfl | ⟨s, rfl⟩ <;> rfl
  | DateTime => obtain ⟨t, rfl⟩ := h; rfl
  | Guid => obtain ⟨g, rfl, hg⟩ := h; rfl
  | ByteString => rcases h with rfl | ⟨b, rfl⟩ <;> rfl
  | NodeId => obtain ⟨n, rfl, hn⟩ := h; rfl
  | ExpandedNodeId => obtain ⟨n, rfl, hn⟩ := h; rfl

theorem flatLeaves_nonlist (x : PyVal) (h : isList x = false) : flatLeaves x = [x] := by
  cases x with
  | none => rfl
  | scalar s => rfl
  | list l => simp [isList] at h

theorem flatLeavesList_nonlist (l : List PyVal) (h : ∀ x ∈ l, isList x = false) :
    flatLeavesList l = l := by
  induction l with
  | nil => rfl
  | cons x xs ih =>
    simp only [flatLeavesList]
    rw [flatLeaves_nonlist x (h x (by simp)), ih (fun y hy => h y (by simp [hy]))]
    rfl

theorem flatLeavesList_append (a b : List PyVal) :
    flatLeavesList (a ++ b) = flatLeavesList a ++ flatLeavesList b := by
  induction a with
  | nil => rfl
  | cons x xs ih => simp [flatLeavesList, ih]

theorem chunkBy_cons_block {α : Type} (k : Nat) (b rest : List α)
    (hb : b.length = k) (hk : 0 < k) :
    chunkBy k (b ++ rest) = b :: chunkBy k rest := by
  have hkne : ¬(k = 0) := by omega
  cases b with
  | nil =>
    simp only [List.length_nil] at hb
    exact absurd hb (by omega)
  | cons x xs =>
    show chunkBy k (x :: (xs ++ rest)) = (x :: xs) :: chunkBy k rest
    rw [chunkBy]
    simp only [hkne, dite_false]
    have hcons : (x :: xs) ++ rest = x :: (xs ++ rest) := rfl
    have htake : (x :: (xs ++ rest)).take k = x :: xs := by
      rw [← hcons, ← hb, List.take_left]
    have hdrop : (x :: (xs ++ rest)).drop k = rest := by
      rw [← hcons, ← hb, List.drop_left]
    rw [htake, hdrop]

theorem chunkBy_flatten {α : Type} (k : Nat) (blocks : List (List α))
    (hk : 0 < k) (hb : ∀ b ∈ blocks, b.length = k) :
    chunkBy k blocks.flatten = blocks := by
  induction blocks with
  | nil => rw [List.flatten_nil, chunkBy]
  | cons b bs ih =>
    simp only [List.flatten_cons]
    rw [chunkBy_cons_block k b bs.flatten (hb b (by simp)) hk]
    rw [ih (fun c hc => hb c (by simp [hc]))]

theorem subsize_foldl_mul (ds : List Int) (a b : Int) :
    List.foldl (fun acc i => acc * (if i = 0 then 1 else i)) (a * b) ds =
      a * List.foldl (fun acc i => acc * (if i = 0 then 1 else i)) b ds := by
  induction ds generalizing b with
  | nil => simp
  | cons i ds ih =>
    simp only [List.foldl_cons]
    rw [mul_assoc, ih (b * (if i = 0 then 1 else i))]

theorem subsizeOf_cons (d : Int) (ds : List Int) (hd : ¬(d = 0)) :
    subsizeOf (d :: ds) = d * subsizeOf ds := by
  unfold subsizeOf
  simp only [List.foldl_cons, hd, if_false, one_mul]
  have hd1 : d = d * 1 := by ring
  rw [hd1, subsize_foldl_mul ds d 1]
  ring_nf

theorem subsizeOf_pos (ds : List Int) (h : ∀ i ∈ ds, 0 < i) : 0 < subsizeOf ds := by
  induction ds with
  | nil => norm_num [subsizeOf]
  | cons d ds ih =>
    have hd : 0 < d := h d (by simp)
    rw [subsizeOf_cons d ds (by omega)]
    exact mul_pos hd (ih (fun i hi => h i (by simp [hi])))

/-- ShapeList vt l dims: the Python list l is a rectangular nesting of
well-formed scalars for tag vt whose axis lengths are exactly dims. -/
def ShapeList (vt : VariantType) : List PyVal → List Int → Prop
  | _, [] => False
  | l, [d] => ((l.length : Int) = d ∧ ∀ x ∈ l, WFVal vt x)
  | l, d :: d2 :: ds =>
      ((l.length : Int) = d ∧
        ∀ x ∈ l, ∃ sub, x = PyVal.list sub ∧ ShapeList vt sub (d2 :: ds))

theorem shape_flat_length (vt : VariantType) (dims : List Int) (l : List PyVal)
    (hpos : ∀ i ∈ dims, 0 < i) (hs : ShapeList vt l dims) :
    ((flatLeavesList l).length : Int) = subsizeOf dims := by
  induction dims generalizing l with
  | nil => exact absurd hs (by simp [ShapeList])
  | cons d rest ih =>
    cases rest with
    | nil =>
      obtain ⟨hlen, hwf⟩ := hs
      rw [flatLeavesList_nonlist l (fun x hx => WFVal_not_list vt x (hwf x hx))]
      rw [subsizeOf_cons d [] (by have := hpos d (by simp); omega)]
      simp only [subsizeOf, List.foldl_nil]
      rw [hlen]; ring
    | cons d2 ds =>
      obtain ⟨hlen, hsub⟩ := hs
      rw [subsizeOf_cons d (d2 :: ds) (by have := hpos d (by simp); omega)]
      have hrestpos : ∀ i ∈ d2 :: ds, 0 < i := fun i hi => hpos i (by simp [hi])
      clear hpos
      induction l generalizing d with
      | nil =>
        simp only [List.length_nil, Nat.cast_zero] at hlen
        subst hlen
        simp [flatLeavesList]
      | cons x xs ihl =>
        obtain ⟨sub, rfl, hsubshape⟩ := hsub x (by simp)
        simp only [flatLeavesList, flatLeaves, flatLeavesList_append]
        have hxs : ((xs.length : Int)) = d - 1 := by
          simp only [List.length_cons] at hlen
          omega
        have ihx := ihl (d - 1) hxs (fun y hy => hsub y (List.mem_cons_of_mem _ hy))
        have hsubflat := ih sub hrestpos hsubshape
        simp only [List.length_append, Nat.cast_add]
        rw [hsubflat]
        push_cast at ihx ⊢
        rw [ihx]
        ring

theorem reshape_flatten (vt : VariantType) (dims : List Int) (l : List PyVal)
    (hpos : ∀ i ∈ dims, 0 < i) (hs : ShapeList vt l dims) :
    _reshape (flatLeavesList l) dims = some l := by
  induction dims generalizing l with
  | nil => exact absurd hs (by simp [ShapeList])
  | cons d rest ih =>
    have hd : 0 < d := hpos d (by simp)
    cases rest with
    | nil =>
      obtain ⟨hlen, hwf⟩ := hs
      rw [flatLeavesList_nonlist l (fun x hx => WFVal_not_list vt x (hwf x hx))]
      unfold _reshape
      have hsub1 : subsizeOf ([] : List Int) = 1 := rfl
      simp [hsub1, hlen]
    | cons d2 ds =>
      obtain ⟨hlen, hsub⟩ := hs
      have hrestpos : ∀ i ∈ d2 :: ds, 0 < i := fun i hi => hpos i (by simp [hi])
      have hspos : 0 < subsizeOf (d2 :: ds) := subsizeOf_pos (d2 :: ds) hrestpos
      have hflatlen : ((flatLeavesList l).length : Int) = d * subsizeOf (d2 :: ds) := by
        have hfl := shape_flat_length vt (d :: d2 :: ds) l hpos ⟨hlen, hsub⟩
        rw [hfl, subsizeOf_cons d (d2 :: ds) (by omega)]
      unfold _reshape
      have hne1 : ¬(d2 :: ds = ([] : List Int)) := by simp
      have hne2 : ¬(d2 :: ds = ([0] : List Int)) := by
        intro hc
        have hd2 : d2 = 0 := by injection hc
        have := hpos d2 (by simp)
        omega
      have hnotgt : ¬(d * subsizeOf (d2 :: ds) > ((flatLeavesList l).length : Int)) := by
        rw [hflatlen]
        exact lt_irrefl _
      have hnotle : ¬(subsizeOf (d2 :: ds) ≤ 0) := by omega
      simp only [hnotgt, if_false, hne1, hne2, or_self, hnotle]
      -- remaining: reshapeChunks over the chunked flat list rebuilds l
      clear hnotgt hflatlen hlen hd
      induction l with
      | nil => rw [show flatLeavesList [] = [] from rfl, chunkBy, reshapeChunks]
      | cons x xs ihl =>
        obtain ⟨sub, rfl, hsubshape⟩ := hsub x (by simp)
        have hsublen : (flatLeavesList sub).length = (subsizeOf (d2 :: ds)).toNat := by
          have hfl := shape_flat_length vt (d2 :: ds) sub hrestpos hsubshape
          omega
        rw [show flatLeavesList (PyVal.list sub :: xs) =
            flatLeavesList sub ++ flatLeavesList xs from rfl]
        rw [chunkBy_cons_block (subsizeOf (d2 :: ds)).toNat (flatLeavesList sub)
          (flatLeavesList xs) hsublen (by omega)]
        rw [reshapeChunks]
        rw [ih sub hrestpos hsubshape]
        simp only [Option.bind_eq_bind, Option.some_bind]
        rw [ihl (fun y hy => hsub y (List.mem_cons_of_mem _ hy))]
        simp

theorem shape_flat_wf (vt : VariantType) (dims : List Int) (l : List PyVal)
    (hs : ShapeList vt l dims) : ∀ x ∈ flatLeavesList l, WFVal vt x := by
  induction dims generalizing l with
  | nil => exact absurd hs (by simp [ShapeList])
  | cons d rest ih =>
    cases rest with
    | nil =>
      obtain ⟨hlen, hwf⟩ := hs
      rw [flatLeavesList_nonlist l (fun x hx => WFVal_not_list vt x (hwf x hx))]
      exact hwf
    | cons d2 ds =>
      obtain ⟨hlen, hsub⟩ := hs
      clear hlen
      induction l with
      | nil => intro x hx; simp [flatLeavesList] at hx
      | cons y ys ihl =>
        intro x hx
        obtain ⟨sub, rfl, hss⟩ := hsub y (by simp)
        rw [show flatLeavesList (PyVal.list sub :: ys) =
            flatLeavesList sub ++ flatLeavesList ys from rfl] at hx
        rcases List.mem_append.mp hx with hx1 | hx2
        · exact ih sub hss x hx1
        · exact ihl (fun z hz => hsub z (List.mem_cons_of_mem _ hz)) x hx2

theorem dtv_value (vt : VariantType) :
    datatype_to_varianttype (VariantType.value vt) = some vt := by
  cases vt <;> decide

theorem variant_bits_scalar (vt : VariantType) :
    ((VariantType.value vt &&& 63) &&& 63) = VariantType.value vt ∧
    test_bit (VariantType.value vt &&& 63) 7 = 0 ∧
    test_bit (VariantType.value vt &&& 63) 6 = 0 ∧
    (VariantType.value vt &&& 63) < 256 := by
  cases vt <;> decide

theorem variant_bits_array (vt : VariantType) :
    (set_bit (VariantType.value vt &&& 63) 7 &&& 63) = VariantType.value vt ∧
    test_bit (set_bit (VariantType.value vt &&& 63) 7) 7 ≠ 0 ∧
    test_bit (set_bit (VariantType.value vt &&& 63) 7) 6 = 0 ∧
    set_bit (VariantType.value vt &&& 63) 7 < 256 := by
  cases vt <;> decide

theorem variant_bits_dims (vt : VariantType) :
    (set_bit (set_bit (VariantType.value vt &&& 63) 7) 6 &&& 63) = VariantType.value vt ∧
    test_bit (set_bit (set_bit (VariantType.value vt &&& 63) 7) 6) 7 ≠ 0 ∧
    test_bit (set_bit (set_bit (VariantType.value vt &&& 63) 7) 6) 6 ≠ 0 ∧
    set_bit (set_bit (VariantType.value vt &&& 63) 7) 6 < 256 := by
  cases vt <;> decide

theorem Byte_pack_small (n : Nat) (h : n < 256) :
    Primitives.Byte.pack n = some [n] := by
  simp [Primitives.Byte.pack, upack, h, toLE, Nat.mod_eq_of_lt h]

theorem pyToIntList_map (dims : List Int) :
    pyToIntList (PyVal.list (dims.map (fun d => PyVal.scalar (Scalar.int32 d)))) =
      some dims := by
  simp only [pyToIntList]
  induction dims with
  | nil => rfl
  | cons d ds ih =>
    rw [List.map_cons, List.mapM_cons, ih]
    rfl

theorem variant_enc_arr1_none (vt : VariantType) (l : List PyVal)
    (hb : pack_uatype_array vt (PyVal.list (flatLeavesList l)) = none) :
    variant_to_binary ⟨vt, PyVal.list l, Option.none, true⟩ = none := by
  have henc : variant_to_binary ⟨vt, PyVal.list l, Option.none, true⟩ = (do
      let eb ← Primitives.Byte.pack (set_bit (VariantType.value vt &&& 63) 7)
      let body ← pack_uatype_array vt (PyVal.list (flatLeavesList l))
      pure ((⟨vt, PyVal.list l, Option.none, true⟩ : Variant), eb ++ body)) := rfl
  rw [henc, Byte_pack_small (set_bit (VariantType.value vt &&& 63) 7)
    (variant_bits_array vt).2.2.2, hb]
  rfl

theorem variant_enc_arr1_some (vt : VariantType) (l : List PyVal) (body : List Byte)
    (hb : pack_uatype_array vt (PyVal.list (flatLeavesList l)) = some body) :
    variant_to_binary ⟨vt, PyVal.list l, Option.none, true⟩ =
      some (⟨vt, PyVal.list l, Option.none, true⟩,
        set_bit (VariantType.value vt &&& 63) 7 :: body) := by
  have henc : variant_to_binary ⟨vt, PyVal.list l, Option.none, true⟩ = (do
      let eb ← Primitives.Byte.pack (set_bit (VariantType.value vt &&& 63) 7)
      let body ← pack_uatype_array vt (PyVal.list (flatLeavesList l))
      pure ((⟨vt, PyVal.list l, Option.none, true⟩ : Variant), eb ++ body)) := rfl
  rw [henc, Byte_pack_small (set_bit (VariantType.value vt &&& 63) 7)
    (variant_bits_array vt).2.2.2, hb]
  rfl

theorem variant_enc_dims_none1 (vt : VariantType) (dims0 : List Int) (l : List PyVal)
    (hb : pack_uatype_array vt (PyVal.list (flatLeavesList l)) = none) :
    variant_to_binary ⟨vt, PyVal.list l, some dims0, true⟩ = none := by
  have henc : variant_to_binary ⟨vt, PyVal.list l, some dims0, true⟩ = (do
      let eb ← Primitives.Byte.pack (set_bit (set_bit (VariantType.value vt &&& 63) 7) 6)
      let body ← pack_uatype_array vt (PyVal.list (flatLeavesList l))
      let dimsb ← pack_uatype_array VariantType.Int32
        (PyVal.list (dims0.map (fun d => PyVal.scalar (Scalar.int32 d))))
      pure ((⟨vt, PyVal.list l, some dims0, true⟩ : Variant), eb ++ body ++ dimsb)) := rfl
  rw [henc, Byte_pack_small (set_bit (set_bit (VariantType.value vt &&& 63) 7) 6)
    (variant_bits_dims vt).2.2.2, hb]
  rfl

theorem variant_enc_dims_none2 (vt : VariantType) (dims0 : List Int) (l : List PyVal)
    (body : List Byte)
    (hb : pack_uatype_array vt (PyVal.list (flatLeavesList l)) = some body)
    (hdb : pack_uatype_array VariantType.Int32
      (PyVal.list (dims0.map (fun d => PyVal.scalar (Scalar.int32 d)))) = none) :
    variant_to_binary ⟨vt, PyVal.list l, some dims0, true⟩ = none := by
  have henc : variant_to_binary ⟨vt, PyVal.list l, some dims0, true⟩ = (do
      let eb ← Primitives.Byte.pack (set_bit (set_bit (VariantType.value vt &&& 63) 7) 6)
      let body ← pack_uatype_array vt (PyVal.list (flatLeavesList l))
      let dimsb ← pack_uatype_array VariantType.Int32
        (PyVal.list (dims0.map (fun d => PyVal.scalar (Scalar.int32 d))))
      pure ((⟨vt, PyVal.list l, some dims0, true⟩ : Variant), eb ++ body ++ dimsb)) := rfl
  rw [henc, Byte_pack_small (set_bit (set_bit (VariantType.value vt &&& 63) 7) 6)
    (variant_bits_dims vt).2.2.2, hb, hdb]
  rfl

theorem variant_enc_dims_some (vt : VariantType) (dims0 : List Int) (l : List PyVal)
    (body dimsb : List Byte)
    (hb : pack_uatype_array vt (PyVal.list (flatLeavesList l)) = some body)
    (hdb : pack_uatype_array VariantType.Int32
      (PyVal.list (dims0.map (fun d => PyVal.scalar (Scalar.int32 d)))) = some dimsb) :
    variant_to_binary ⟨vt, PyVal.list l, some dims0, true⟩ =
      some (⟨vt, PyVal.list l, some dims0, true⟩,
        set_bit (set_bit (VariantType.value vt &&& 63) 7) 6 :: (body ++ dimsb)) := by
  have henc : variant_to_binary ⟨vt, PyVal.list l, some dims0, true⟩ = (do
      let eb ← Primitives.Byte.pack (set_bit (set_bit (VariantType.value vt &&& 63) 7) 6)
      let body ← pack_uatype_array vt (PyVal.list (flatLeavesList l))
      let dimsb ← pack_uatype_array VariantType.Int32
        (PyVal.list (dims0.map (fun d => PyVal.scalar (Scalar.int32 d))))
      pure ((⟨vt, PyVal.list l, some dims0, true⟩ : Variant), eb ++ body ++ dimsb)) := rfl
  rw [henc, Byte_pack_small (set_bit (set_bit (VariantType.value vt &&& 63) 7) 6)
    (variant_bits_dims vt).2.2.2, hb, hdb]
  simp

/-- C1 (corrected): round trip of the Variant codec over the modelled tags,
for the three shapes: scalar, one-dimensional array, and multi-dimensional
array with positive dimensions matching the value nesting. Amended scope:
the scalar well-formedness `WFVal` excludes NodeId values carrying a
NamespaceUri or ServerIndex suffix, since those attributes are dropped by
the encoder and the round trip fails on them. -/
theorem variant_roundtrip (v v2 : Variant) (e r : List Byte)
    (hshape :
      (v.is_array = false ∧ v.Dimensions = Option.none ∧ WFVal v.VariantType v.Value) ∨
      (v.is_array = true ∧ v.Dimensions = Option.none ∧
        ∃ l, v.Value = PyVal.list l ∧ ∀ x ∈ l, WFVal v.VariantType x) ∨
      (v.is_array = true ∧ ∃ dims l, v.Dimensions = some dims ∧
        v.Value = PyVal.list l ∧ (∀ i ∈ dims, 0 < i) ∧ ShapeList v.VariantType l dims))
    (h : variant_to_binary v = some (v2, e)) :
    v2 = v ∧ variant_from_binary (e ++ r) = some (v, r) := by
  obtain ⟨vt, val, dims, arr⟩ := v
  rcases hshape with ⟨ha, hd, hwf⟩ | ⟨ha, hd, l, hval, hwf⟩ |
    ⟨ha, dims0, l, hd, hval, hpos, hs⟩
  · -- scalar case
    obtain rfl : arr = false := ha
    obtain rfl : dims = Option.none := hd
    have hnl : isList val = false := WFVal_not_list vt val hwf
    simp only [variant_to_binary, hnl, Bool.or_false, Bool.false_eq_true, if_false,
      Byte_pack_small (VariantType.value vt &&& 63) (variant_bits_scalar vt).2.2.2,
      Option.bind_eq_bind, Option.some_bind] at h
    cases hb : pack_uatype vt val with
    | none => rw [hb] at h; simp at h
    | some body =>
      rw [hb] at h
      simp only [Option.pure_def, Option.some_bind, Option.some.injEq, Prod.mk.injEq] at h
      obtain ⟨hv2, he⟩ := h
      subst he
      constructor
      · exact hv2.symm
      · simp only [List.cons_append, List.append_assoc]
        unfold variant_from_binary
        rw [readN_one]
        simp only [Option.bind_eq_bind, Option.some_bind, fromLE_one, List.nil_append]
        rw [(variant_bits_scalar vt).1, dtv_value vt]
        simp only [Option.some_bind]
        rw [(variant_bits_scalar vt).2.1]
        simp only [bne_self_eq_false, Bool.false_eq_true, if_false]
        rw [unpack_pack_uatype vt val body r hwf hb]
        simp only [Option.some_bind]
        rw [(variant_bits_scalar vt).2.2.1]
        simp
  · -- one-dimensional array case
    obtain rfl : arr = true := ha
    obtain rfl : dims = Option.none := hd
    obtain rfl : val = PyVal.list l := hval
    have hleaves : flatLeavesList l = l :=
      flatLeavesList_nonlist l (fun x hx => WFVal_not_list vt x (hwf x hx))
    cases hb : pack_uatype_array vt (PyVal.list (flatLeavesList l)) with
    | none =>
      rw [variant_enc_arr1_none vt l hb] at h
      exact Option.noConfusion h
    | some body =>
      rw [variant_enc_arr1_some vt l body hb] at h
      simp only [Option.some.injEq, Prod.mk.injEq] at h
      obtain ⟨hv2, he⟩ := h
      subst he
      refine ⟨hv2.symm, ?_⟩
      have hb2 : pack_uatype_array vt (PyVal.list l) = some body := by
        rw [hleaves] at hb
        exact hb
      simp only [List.cons_append]
      unfold variant_from_binary
      rw [readN_one]
      simp only [Option.bind_eq_bind, Option.some_bind, fromLE_one, List.nil_append]
      rw [(variant_bits_array vt).1, dtv_value vt]
      simp only [Option.some_bind]
      have hb7 : (test_bit (set_bit (VariantType.value vt &&& 63) 7) 7 != 0) = true := by
        have hx := (variant_bits_array vt).2.1
        simpa [bne_iff_ne] using hx
      rw [hb7]
      simp only [if_true]
      rw [unpack_pack_uatype_array vt (PyVal.list l) body r
        (Or.inr ⟨l, rfl, hwf⟩) hb2]
      simp only [Option.some_bind]
      rw [(variant_bits_array vt).2.2.1]
      simp
  · -- multi-dimensional array case
    obtain rfl : arr = true := ha
    obtain rfl : dims = some dims0 := hd
    obtain rfl : val = PyVal.list l := hval
    cases hb : pack_uatype_array vt (PyVal.list (flatLeavesList l)) with
    | none =>
      rw [variant_enc_dims_none1 vt dims0 l hb] at h
      exact Option.noConfusion h
    | some body =>
    cases hdb : pack_uatype_array VariantType.Int32
        (PyVal.list (dims0.map (fun d => PyVal.scalar (Scalar.int32 d)))) with
    | none =>
      rw [variant_enc_dims_none2 vt dims0 l body hb hdb] at h
      exact Option.noConfusion h
    | some dimsb =>
      rw [variant_enc_dims_some vt dims0 l body dimsb hb hdb] at h
      simp only [Option.some.injEq, Prod.mk.injEq] at h
      obtain ⟨hv2, he⟩ := h
      subst he
      refine ⟨hv2.symm, ?_⟩
      simp only [List.cons_append, List.append_assoc]
      unfold variant_from_binary
      rw [readN_one]
      simp only [Option.bind_eq_bind, Option.some_bind, fromLE_one, List.nil_append]
      rw [(variant_bits_dims vt).1, dtv_value vt]
      simp only [Option.some_bind]
      have hb7 : (test_bit (set_bit (set_bit (VariantType.value vt &&& 63) 7) 6) 7
          != 0) = true := by
        have hx := (variant_bits_dims vt).2.1
        simpa [bne_iff_ne] using hx
      have hb6 : (test_bit (set_bit (set_bit (VariantType.value vt &&& 63) 7) 6) 6
          != 0) = true := by
        have hx := (variant_bits_dims vt).2.2.1
        simpa [bne_iff_ne] using hx
      rw [hb7]
      simp only [if_true]
      have hflatwf : ∀ x ∈ flatLeavesList l, WFVal vt x := shape_flat_wf vt dims0 l hs
      rw [unpack_pack_uatype_array vt (PyVal.list (flatLeavesList l)) body
        (dimsb ++ r) (Or.inr ⟨flatLeavesList l, rfl, hflatwf⟩) hb]
      simp only [Option.some_bind]
      rw [hb6]
      simp only [if_true]
      have hdimwf : ∀ x ∈ dims0.map (fun d => PyVal.scalar (Scalar.int32 d)),
          WFVal VariantType.Int32 x := by
        intro x hx
        obtain ⟨dd, hdd, rfl⟩ := List.mem_map.mp hx
        exact ⟨dd, rfl⟩
      rw [unpack_pack_uatype_array VariantType.Int32
        (PyVal.list (dims0.map (fun d => PyVal.scalar (Scalar.int32 d)))) dimsb r
        (Or.inr ⟨dims0.map (fun d => PyVal.scalar (Scalar.int32 d)), rfl, hdimwf⟩) hdb]
      simp only [Option.some_bind]
      rw [pyToIntList_map dims0]
      simp only [Option.some_bind]
      rw [reshape_flatten vt dims0 l hpos hs]
      simp

theorem chunkBy_step {α : Type} (k : Nat) (l : List α) (hk : 0 < k) (hl : l ≠ []) :
    chunkBy k l = l.take k :: chunkBy k (l.drop k) := by
  cases l with
  | nil => exact absurd rfl hl
  | cons x xs =>
    rw [chunkBy]
    simp only [Nat.pos_iff_ne_zero.mp hk, dite_false]

theorem chunkBy_append_mul {α : Type} (k m : Nat) (a b : List α)
    (hk : 0 < k) (ha : a.length = k * m) :
    chunkBy k (a ++ b) = chunkBy k a ++ chunkBy k b := by
  induction m generalizing a with
  | zero =>
    have : a = [] := List.length_eq_zero.mp (by omega)
    subst this
    simp [chunkBy]
  | succ m ih =>
    have hlen : k ≤ a.length := by
      have : k * (m + 1) = k * m + k := by ring
      omega
    have hne : a ≠ [] := by
      intro hc
      subst hc
      simp at hlen
      omega
    have hta : (a.take k).length = k := by
      simp [List.length_take]
      omega
    have hsplit : a = a.take k ++ a.drop k := (List.take_append_drop k a).symm
    have hstep : chunkBy k (a ++ b) = a.take k :: chunkBy k (a.drop k ++ b) := by
      conv_lhs => rw [hsplit]
      rw [List.append_assoc, chunkBy_cons_block k (a.take k) (a.drop k ++ b) hta hk]
    have hstepa : chunkBy k a = a.take k :: chunkBy k (a.drop k) :=
      chunkBy_step k a hk hne
    have hdlen : (a.drop k).length = k * m := by
      simp [List.length_drop]
      have : k * (m + 1) = k * m + k := by ring
      omega
    rw [hstep, ih (a.drop k) hdlen, hstepa]
    rfl

theorem reshapeChunks_append (a b : List (List PyVal)) (sd : List Int) :
    reshapeChunks (a ++ b) sd = (do
      let x ← reshapeChunks a sd
      let y ← reshapeChunks b sd
      pure (x ++ y)) := by
  induction a with
  | nil =>
    rw [List.nil_append, reshapeChunks]
    cases reshapeChunks b sd <;> simp
  | cons c cs ih =>
    rw [List.cons_append, reshapeChunks, reshapeChunks, ih]
    cases _reshape c sd with
    | none => simp
    | some rc =>
      simp only [Option.bind_eq_bind, Option.some_bind]
      cases reshapeChunks cs sd with
      | none => simp
      | some rcs =>
        simp only [Option.some_bind]
        cases reshapeChunks b sd <;> simp

/-- C9 (confirmed): tolerant reshaping of `_reshape`, as decoded dimensions
meet a flat list of the wrong length. Deficit: when the dimension product (zeros counted as
one for the stride) exceeds the flat length, the result equals reshaping the
flat list padded at the end with empty lists up to the product. Surplus:
when the flat length reaches or exceeds the product, the result is the
reshape of the first product-many elements followed by the extra elements
grouped into trailing outer group(s) of the same stride. -/
theorem reshape_tolerant (flat : List PyVal) (d : Int) (subdims : List Int) :
    (d * subsizeOf subdims > (flat.length : Int) →
      _reshape flat (d :: subdims) =
        _reshape (flat ++ List.replicate
          ((d * subsizeOf subdims - (flat.length : Int)).toNat)
          (PyVal.list [])) (d :: subdims)) ∧
    (0 ≤ d → 0 < subsizeOf subdims → d * subsizeOf subdims ≤ (flat.length : Int) →
      _reshape flat (d :: subdims) = (do
        let g1 ← _reshape (flat.take (d * subsizeOf subdims).toNat) (d :: subdims)
        let g2 ← _reshape (flat.drop (d * subsizeOf subdims).toNat) (0 :: subdims)
        pure (g1 ++ g2))) := by
  constructor
  · intro hgt
    have hlen2 : (((flat ++ List.replicate
        ((d * subsizeOf subdims - (flat.length : Int)).toNat)
        (PyVal.list [])).length : Nat) : Int) = d * subsizeOf subdims := by
      rw [List.length_append, List.length_replicate]
      push_cast
      omega
    have hlt2 : ¬(d * subsizeOf subdims > (((flat ++ List.replicate
        ((d * subsizeOf subdims - (flat.length : Int)).toNat)
        (PyVal.list [])).length : Nat) : Int)) := by
      rw [hlen2]
      exact lt_irrefl _
    unfold _reshape
    simp only [hgt, hlt2, if_true, if_false]
  · intro hd hs hlen
    have hn : (((d * subsizeOf subdims).toNat : Nat) : Int) = d * subsizeOf subdims := by
      have hmn : 0 ≤ d * subsizeOf subdims := mul_nonneg hd (by omega)
      omega
    set n : Nat := (d * subsizeOf subdims).toNat with hndef
    have hnlen : n ≤ flat.length := by omega
    have htlen : (flat.take n).length = n := by
      simp [List.length_take]
      omega
    have hmain_nopad : ¬(d * subsizeOf subdims > ((flat.length : Nat) : Int)) := by omega
    have htake_nopad : ¬(d * subsizeOf subdims > (((flat.take n).length : Nat) : Int)) := by
      rw [htlen]
      omega
    have hdrop_nopad : ¬((0 : Int) * subsizeOf subdims >
        (((flat.drop n).length : Nat) : Int)) := by
      simp
    by_cases hbase : subdims = [] ∨ subdims = [0]
    · unfold _reshape
      simp only [hmain_nopad, htake_nopad, hdrop_nopad, hbase, if_true, if_false]
      simp [List.take_append_drop]
    · have hnotle : ¬(subsizeOf subdims ≤ 0) := by omega
      have hkpos : 0 < (subsizeOf subdims).toNat := by omega
      have hmul : (flat.take n).length = (subsizeOf subdims).toNat * d.toNat := by
        have h1 : ((d.toNat : Nat) : Int) = d := Int.toNat_of_nonneg hd
        have h2 : (((subsizeOf subdims).toNat : Nat) : Int) = subsizeOf subdims :=
          Int.toNat_of_nonneg (by omega)
        have h3 : (((subsizeOf subdims).toNat * d.toNat : Nat) : Int) =
            d * subsizeOf subdims := by
          rw [Nat.cast_mul, h1, h2]
          ring
        rw [htlen, hndef]
        omega
      unfold _reshape
      simp only [hmain_nopad, htake_nopad, hdrop_nopad, hbase, hnotle, if_true,
        if_false, or_false, false_or]
      have hsplitflat : flat = flat.take n ++ flat.drop n :=
        (List.take_append_drop n flat).symm
      conv_lhs => rw [hsplitflat]
      rw [chunkBy_append_mul (subsizeOf subdims).toNat d.toNat (flat.take n)
        (flat.drop n) hkpos hmul]
      exact reshapeChunks_append (chunkBy (subsizeOf subdims).toNat (flat.take n))
        (chunkBy (subsizeOf subdims).toNat (flat.drop n)) subdims

/-- Helper `unset_bit` of `ua_binary`. On the nonnegative integers stored in
bitmask fields, the Python `data & ~mask` equals subtracting the bit when it
is set. -/
def unset_bit (data offset : Nat) : Nat :=
  data - (if Nat.testBit data offset then 1 <<< offset else 0)

/-- Integer value of a Python int attribute represented as an unsigned
scalar (the kinds schemas declare for switch containers). -/
def scalarNat : Scalar → Option Nat
  | .byte n => some n
  | .uint16 n => some n
  | .uint32 n => some n
  | .uint64 n => some n
  | _ => Option.none

/-- Replacement of the integer value of an unsigned scalar, preserving its
declared kind. -/
def withScalarNat : Scalar → Nat → Scalar
  | .byte _, n => .byte n
  | .uint16 _, n => .uint16 n
  | .uint32 _, n => .uint32 n
  | .uint64 _, n => .uint64 n
  | s, _ => s

/-- Bit-OR of `container_val | 1 << idx` on a Python int attribute; any
other operand kind raises a TypeError. -/
def orBitScalar (s : Scalar) (idx : Nat) : Option Scalar :=
  match s with
  | .byte n => some (.byte (n ||| (1 <<< idx)))
  | .uint16 n => some (.uint16 (n ||| (1 <<< idx)))
  | .uint32 n => some (.uint32 (n ||| (1 <<< idx)))
  | .uint64 n => some (.uint64 (n ||| (1 <<< idx)))
  | _ => Option.none

def orBitP (v : PyVal) (idx : Nat) : Option PyVal :=
  match v with
  | .scalar s => (orBitScalar s idx).map PyVal.scalar
  | _ => Option.none

/-- Python object carrying a ua schema: the ordered `ua_types` field list,
the `ua_switches` map as an association list in insertion order (empty
standing for a class without the attribute, which behaves identically since
membership tests on an empty map fail), and the attribute store. -/
structure UaObject where
  ua_types : List (String × String)
  ua_switches : List (String × String × Nat)
  attrs : List (String × PyVal)

/-- Attribute lookup, `getattr`; a missing attribute raises. -/
def getAttrList (n : String) : List (String × PyVal) → Option PyVal
  | [] => Option.none
  | p :: rest => if p.1 = n then some p.2 else getAttrList n rest

def getattr (o : UaObject) (n : String) : Option PyVal := getAttrList n o.attrs

/-- Attribute update, `setattr`: replace in place or append. -/
def setAttrList (n : String) (v : PyVal) : List (String × PyVal) → List (String × PyVal)
  | [] => [(n, v)]
  | p :: rest => if p.1 = n then (n, v) :: rest else p :: setAttrList n v rest

def setattrF (o : UaObject) (n : String) (v : PyVal) : UaObject :=
  { o with attrs := setAttrList n v o.attrs }

/-- Switch pass of `struct_to_binary`: for every switch entry whose field
value is present, OR the controlling bit into the container attribute. -/
def applySwitches (o : UaObject) : List (String × String × Nat) → Option UaObject
  | [] => some o
  | (name, container, idx) :: rest => do
      let member ← getattr o name
      match member with
      | PyVal.none => applySwitches o rest
      | _ => do
          let cv ← getattr o container
          let cv2 ← orBitP cv idx
          applySwitches (setattrF o container cv2) rest

/-- Name table of the modelled `ua.VariantType` members, for the
`hasattr(ua.VariantType, uatype)` dispatch of `to_binary`. -/
def variantTypeNames : List (String × VariantType) :=
  [("Null", .Null), ("Boolean", .Boolean), ("SByte", .SByte), ("Byte", .Byte),
   ("Int16", .Int16), ("UInt16", .UInt16), ("Int32", .Int32), ("UInt32", .UInt32),
   ("Int64", .Int64), ("UInt64", .UInt64), ("Float", .Float), ("Double", .Double),
   ("String", .String), ("DateTime", .DateTime), ("Guid", .Guid),
   ("ByteString", .ByteString), ("NodeId", .NodeId), ("ExpandedNodeId", .ExpandedNodeId)]

def lookupVT (s : String) : Option VariantType := variantTypeNames.lookup s

mutual

/-- Dispatch of `to_binary` restricted to the modelled universe, in source
order: a list or tuple is length-prefixed elementwise; a `VariantType` name
dispatches to `pack_uatype`; a NodeId value to the NodeId codec. The
enumeration, Variant and nested-structure branches concern classes outside
the verified sources, and fall to the failing final `else` here. -/
def to_binary (uatype : String) (val : PyVal) : Option (List Byte) :=
  match val with
  | PyVal.list l => do
      let pre ← Primitives.Int32.pack (l.length : Int)
      let chunks ← mapToBinary uatype l
      pure (pre ++ chunks.flatten)
  | _ =>
      match lookupVT uatype with
      | some vt => pack_uatype vt val
      | Option.none =>
          match val with
          | PyVal.scalar (.nodeid n) => nodeid_to_binary n
          | _ => Option.none

def mapToBinary (uatype : String) : List PyVal → Option (List (List Byte))
  | [] => some []
  | x :: xs => do
      let b ← to_binary uatype x
      let bs ← mapToBinary uatype xs
      pure (b :: bs)

end

/-- Encoder `list_to_binary` for `ListOf` fields: an absent list encodes as
the Int32 prefix -1, otherwise a length prefix then the elements. -/
def list_to_binary (uatype : String) (val : PyVal) : Option (List Byte) :=
  match val with
  | PyVal.none => Primitives.Int32.pack (-1)
  | PyVal.list l => do
      let pre ← Primitives.Int32.pack (l.length : Int)
      let chunks ← mapToBinary uatype l
      pure (pre ++ chunks.flatten)
  | PyVal.scalar _ => Option.none

/-- Python str.startswith check against the six-character prefix ListOf,
computed on the character list of the name. -/
def startsWithListOf (s : String) : Bool := decide (s.data.take 6 = ("ListOf").data)

/-- Python slice uatype[6:], dropping the ListOf prefix from a type name. -/
def dropSix (s : String) : String := String.mk (s.data.drop 6)

/-- Field emission pass of `struct_to_binary`, in `ua_types` order: `ListOf`
fields via `list_to_binary`; a switched field whose value is absent
contributes no bytes; everything else via `to_binary`. -/
def encodeFields (o : UaObject) : List (String × String) → Option (List Byte)
  | [] => some []
  | (name, uatype) :: rest => do
      let val ← getattr o name
      let chunk ←
        (if startsWithListOf uatype then
          list_to_binary (dropSix uatype) val
        else
          match val, (o.ua_switches).lookup name with
          | PyVal.none, some _ => some []
          | _, _ => to_binary uatype val)
      let restb ← encodeFields o rest
      pure (chunk ++ restb)

/-- Encoder `struct_to_binary`: the switch pass mutates the container
attributes of the object, then the fields are emitted in schema order. The
mutated object is returned alongside the bytes. -/
def struct_to_binary (obj : UaObject) : Option (UaObject × List Byte) := do
  let obj2 ← applySwitches obj obj.ua_switches
  let packet ← encodeFields obj2 obj2.ua_types
  pure (obj2, packet)

theorem getAttr_setAttr_same (n : String) (v : PyVal) (l : List (String × PyVal)) :
    getAttrList n (setAttrList n v l) = some v := by
  induction l with
  | nil => simp [setAttrList, getAttrList]
  | cons p rest ih =>
    by_cases hp : p.1 = n
    · simp [setAttrList, hp, getAttrList]
    · simp only [setAttrList, hp, if_false]
      simp only [getAttrList, hp, if_false]
      exact ih

theorem getAttr_setAttr_ne (n m : String) (v : PyVal) (l : List (String × PyVal))
    (hne : n ≠ m) : getAttrList n (setAttrList m v l) = getAttrList n l := by
  induction l with
  | nil =>
    simp only [setAttrList, getAttrList]
    rw [if_neg (fun hc => hne hc.symm)]
  | cons p rest ih =>
    by_cases hp : p.1 = m
    · have hmn : ¬(m = n) := fun hc => hne hc.symm
      simp only [setAttrList, hp, if_true, getAttrList, hmn, if_false]
    · simp only [setAttrList, hp, if_false, getAttrList]
      by_cases hpn : p.1 = n
      · simp [hpn]
      · simp only [hpn, if_false]
        exact ih

theorem getattr_setattrF (o : UaObject) (m n : String) (v : PyVal) :
    getattr (setattrF o m v) n = if n = m then some v else getattr o n := by
  by_cases h : n = m
  · subst h
    simp [getattr, setattrF, getAttr_setAttr_same]
  · rw [if_neg h]
    show getAttrList n (setAttrList m v o.attrs) = getAttrList n o.attrs
    exact getAttr_setAttr_ne n m v o.attrs h

theorem setAttrList_self (n : String) (v : PyVal) (l : List (String × PyVal))
    (h : getAttrList n l = some v) : setAttrList n v l = l := by
  induction l with
  | nil => simp [getAttrList] at h
  | cons p rest ih =>
    by_cases hp : p.1 = n
    · simp only [getAttrList, hp, if_true, Option.some.injEq] at h
      simp only [setAttrList, hp, if_true]
      rw [← hp, ← h]
    · simp only [getAttrList, hp, if_false] at h
      simp [setAttrList, hp, ih h]

theorem setattrF_self (o : UaObject) (n : String) (v : PyVal)
    (h : getattr o n = some v) : setattrF o n v = o := by
  unfold setattrF
  rw [setAttrList_self n v o.attrs h]

theorem scalarNat_withScalarNat (s : Scalar) (n0 n : Nat)
    (h : scalarNat s = some n0) : scalarNat (withScalarNat s n) = some n := by
  cases s <;> simp [scalarNat] at h <;> simp [scalarNat, withScalarNat]

theorem withScalarNat_self (s : Scalar) (n0 : Nat)
    (h : scalarNat s = some n0) : withScalarNat s n0 = s := by
  cases s <;> simp [scalarNat] at h <;> simp [withScalarNat, h]

theorem withScalarNat_comp (s : Scalar) (n0 a b : Nat)
    (h : scalarNat s = some n0) : withScalarNat (withScalarNat s a) b = withScalarNat s b := by
  cases s <;> simp [scalarNat] at h <;> simp [withScalarNat]

theorem orBitScalar_char (s : Scalar) (n0 : Nat) (i : Nat)
    (h : scalarNat s = some n0) :
    orBitScalar s i = some (withScalarNat s (n0 ||| (1 <<< i))) := by
  cases s <;> simp [scalarNat] at h <;> simp [orBitScalar, withScalarNat, h]

/-- Truthiness of the presence test `member is not None` on a field. -/
def presentF (o : UaObject) (f : String) : Bool :=
  match getattr o f with
  | some PyVal.none => false
  | some _ => true
  | Option.none => false

/-- Accumulated presence bits that the switch pass ORs into container `X`. -/
def maskOf (o : UaObject) (X : String) (sws : List (String × String × Nat)) : Nat :=
  sws.foldl (fun acc e =>
    if e.2.1 = X ∧ presentF o e.1 = true then acc ||| (1 <<< e.2.2) else acc) 0

theorem maskOf_foldl_init (o : UaObject) (X : String)
    (sws : List (String × String × Nat)) (a : Nat) :
    sws.foldl (fun acc e =>
        if e.2.1 = X ∧ presentF o e.1 = true then acc ||| (1 <<< e.2.2) else acc) a =
      a ||| maskOf o X sws := by
  induction sws generalizing a with
  | nil => simp [maskOf]
  | cons e rest ih =>
    simp only [maskOf, List.foldl_cons] at ih ⊢
    by_cases hc : e.2.1 = X ∧ presentF o e.1 = true
    · rw [if_pos hc, if_pos hc, ih (a ||| (1 <<< e.2.2)), ih ((0 : Nat) ||| (1 <<< e.2.2))]
      rw [Nat.zero_or, Nat.or_assoc]
    · rw [if_neg hc, if_neg hc, ih a, ih 0, Nat.zero_or]

theorem maskOf_cons (o : UaObject) (X : String) (e : String × String × Nat)
    (rest : List (String × String × Nat)) :
    maskOf o X (e :: rest) =
      (if e.2.1 = X ∧ presentF o e.1 = true then (1 <<< e.2.2) else 0) ||| maskOf o X rest := by
  simp only [maskOf, List.foldl_cons]
  by_cases hc : e.2.1 = X ∧ presentF o e.1 = true
  · rw [if_pos hc, if_pos hc, maskOf_foldl_init, Nat.zero_or]
    rfl
  · rw [if_neg hc, if_neg hc, maskOf_foldl_init, Nat.zero_or, Nat.zero_or]

theorem maskOf_congr (o o2 : UaObject) (X : String)
    (sws : List (String × String × Nat))
    (h : ∀ e ∈ sws, getattr o2 e.1 = getattr o e.1) :
    maskOf o2 X sws = maskOf o X sws := by
  induction sws with
  | nil => rfl
  | cons e rest ih =>
    rw [maskOf_cons, maskOf_cons]
    have hpe : presentF o2 e.1 = presentF o e.1 := by
      unfold presentF
      rw [h e (by simp)]
    rw [hpe, ih (fun e2 he2 => h e2 (List.mem_cons_of_mem _ he2))]

theorem presentF_true (o : UaObject) (f : String) (vf : PyVal)
    (hvf : getattr o f = some vf) (hne : vf ≠ PyVal.none) : presentF o f = true := by
  unfold presentF
  rw [hvf]
  cases vf with
  | none => exact absurd rfl hne
  | scalar s => rfl
  | list l => rfl

/-- Characterization of the switch pass: it succeeds on well-formed
switch tables, changes only container attributes, and the final integer
value of any unsigned-scalar attribute is its initial value with the
presence mask ORed in. -/
theorem applySwitches_char (sws : List (String × String × Nat)) (o : UaObject)
    (hdisj : ∀ e ∈ sws, ∀ e2 ∈ sws, e.1 ≠ e2.2.1)
    (hfields : ∀ e ∈ sws, (getattr o e.1).isSome)
    (hconts : ∀ e ∈ sws, ∃ s n0, getattr o e.2.1 = some (PyVal.scalar s) ∧
      scalarNat s = some n0) :
    ∃ o2, applySwitches o sws = some o2 ∧
      o2.ua_types = o.ua_types ∧ o2.ua_switches = o.ua_switches ∧
      (∀ n, (∀ e ∈ sws, n ≠ e.2.1) → getattr o2 n = getattr o n) ∧
      (∀ X s n0, getattr o X = some (PyVal.scalar s) → scalarNat s = some n0 →
        getattr o2 X = some (PyVal.scalar (withScalarNat s (n0 ||| maskOf o X sws)))) := by
  induction sws generalizing o with
  | nil =>
    refine ⟨o, rfl, rfl, rfl, fun n _ => rfl, fun X s n0 hX hs => ?_⟩
    rw [show maskOf o X [] = 0 from rfl, Nat.or_zero, withScalarNat_self s n0 hs, hX]
  | cons e rest ih =>
    obtain ⟨f, Y, j⟩ := e
    have hf : (getattr o f).isSome := hfields (f, Y, j) (by simp)
    obtain ⟨vf, hvf⟩ := Option.isSome_iff_exists.mp hf
    obtain ⟨sY, nY, hY0, hsY⟩ := hconts (f, Y, j) (by simp)
    have hY : getattr o Y = some (PyVal.scalar sY) := hY0
    by_cases habs : vf = PyVal.none
    · subst habs
      have happ : applySwitches o ((f, Y, j) :: rest) = applySwitches o rest := by
        conv_lhs => rw [applySwitches]
        rw [hvf]
        rfl
      have hpres : presentF o f = false := by
        unfold presentF
        rw [hvf]
      obtain ⟨o2, h1, h2, h3, h4, h5⟩ := ih o
        (fun e2 he2 e3 he3 => hdisj e2 (List.mem_cons_of_mem _ he2) e3
          (List.mem_cons_of_mem _ he3))
        (fun e2 he2 => hfields e2 (List.mem_cons_of_mem _ he2))
        (fun e2 he2 => hconts e2 (List.mem_cons_of_mem _ he2))
      refine ⟨o2, by rw [happ]; exact h1, h2, h3, ?_, ?_⟩
      · intro n hn
        exact h4 n (fun e2 he2 => hn e2 (List.mem_cons_of_mem _ he2))
      · intro X s n0 hX hs
        rw [h5 X s n0 hX hs, maskOf_cons]
        rw [if_neg (by rw [hpres]; simp)]
        rw [Nat.zero_or]
    · have hpres : presentF o f = true := presentF_true o f vf hvf habs
      have horb : orBitP (PyVal.scalar sY) j =
          some (PyVal.scalar (withScalarNat sY (nY ||| (1 <<< j)))) := by
        simp [orBitP, orBitScalar_char sY nY j hsY]
      have happ : applySwitches o ((f, Y, j) :: rest) =
          applySwitches (setattrF o Y
            (PyVal.scalar (withScalarNat sY (nY ||| (1 <<< j))))) rest := by
        conv_lhs => rw [applySwitches]
        rw [hvf]
        cases vf with
        | none => exact absurd rfl habs
        | scalar sv =>
          simp only [Option.bind_eq_bind, Option.some_bind]
          rw [hY]
          simp only [Option.some_bind, horb]
        | list lv =>
          simp only [Option.bind_eq_bind, Option.some_bind]
          rw [hY]
          simp only [Option.some_bind, horb]
      set w : PyVal := PyVal.scalar (withScalarNat sY (nY ||| (1 <<< j))) with hwdef
      set o1 : UaObject := setattrF o Y w with ho1def
      have hget1 : ∀ n, getattr o1 n = if n = Y then some w else getattr o n :=
        fun n => getattr_setattrF o Y n w
      have hfieldne : ∀ e2 ∈ rest, e2.1 ≠ Y := by
        intro e2 he2
        exact hdisj e2 (List.mem_cons_of_mem _ he2) (f, Y, j) (by simp)
      have hfieldeq : ∀ e2 ∈ rest, getattr o1 e2.1 = getattr o e2.1 := by
        intro e2 he2
        rw [hget1 e2.1, if_neg (hfieldne e2 he2)]
      obtain ⟨o2, h1, h2, h3, h4, h5⟩ := ih o1
        (fun e2 he2 e3 he3 => hdisj e2 (List.mem_cons_of_mem _ he2) e3
          (List.mem_cons_of_mem _ he3))
        (fun e2 he2 => by
          rw [hfieldeq e2 he2]
          exact hfields e2 (List.mem_cons_of_mem _ he2))
        (fun e2 he2 => by
          by_cases hZ : e2.2.1 = Y
          · refine ⟨withScalarNat sY (nY ||| (1 <<< j)), nY ||| (1 <<< j), ?_, ?_⟩
            · rw [hZ, hget1 Y, if_pos rfl]
            · exact scalarNat_withScalarNat sY nY _ hsY
          · obtain ⟨s2, n2, hc1, hc2⟩ := hconts e2 (List.mem_cons_of_mem _ he2)
            exact ⟨s2, n2, by rw [hget1 e2.2.1, if_neg hZ]; exact hc1, hc2⟩)
      have hmaskcongr : ∀ X, maskOf o1 X rest = maskOf o X rest :=
        fun X => maskOf_congr o o1 X rest hfieldeq
      refine ⟨o2, by rw [happ]; exact h1, by rw [h2]; rfl, by rw [h3]; rfl, ?_, ?_⟩
      · intro n hn
        have hnY : n ≠ Y := hn (f, Y, j) (by simp)
        rw [h4 n (fun e2 he2 => hn e2 (List.mem_cons_of_mem _ he2)), hget1 n, if_neg hnY]
      · intro X s n0 hX hs
        by_cases hXY : X = Y
        · subst hXY
          rw [hY] at hX
          injection hX with hX1
          injection hX1 with hX2
          subst hX2
          rw [hsY] at hs
          injection hs with hs2
          subst hs2
          have hstep := h5 X (withScalarNat sY (nY ||| (1 <<< j))) (nY ||| (1 <<< j))
            (by rw [hget1 X, if_pos rfl]) (scalarNat_withScalarNat sY nY _ hsY)
          rw [hstep, hmaskcongr X, withScalarNat_comp sY nY _ _ hsY, maskOf_cons]
          rw [if_pos ⟨rfl, hpres⟩, ← Nat.or_assoc]
        · have hX1 : getattr o1 X = getattr o X := by
            rw [hget1 X, if_neg hXY]
          have hstep := h5 X s n0 (by rw [hX1]; exact hX) hs
          rw [hstep, hmaskcongr X, maskOf_cons]
          rw [if_neg (by intro hc; exact hXY hc.1.symm), Nat.zero_or]

theorem opt_pair_fst {α β : Type} (p : Option α) (q : α → Option β)
    (o2 : α) (bs : β)
    (h : (do
      let a ← p
      let b ← q a
      pure (a, b)) = some (o2, bs)) :
    p = some o2 ∧ q o2 = some bs := by
  cases hp : p with
  | none => rw [hp] at h; simp at h
  | some a =>
    rw [hp] at h
    simp only [Option.bind_eq_bind, Option.some_bind] at h
    cases hq : q a with
    | none => rw [hq] at h; simp at h
    | some b =>
      rw [hq] at h
      simp only [Option.some_bind, Option.pure_def, Option.some.injEq,
        Prod.mk.injEq] at h
      obtain ⟨h1, h2⟩ := h
      subst h1
      subst h2
      exact ⟨rfl, hq⟩

theorem opt2_const_fst {α β γ δ : Type} (p : Option α) (q : α → Option β) (c : γ)
    (g : α → β → δ) (v2 : γ) (bs : δ)
    (h : (do
      let a ← p
      let b ← q a
      pure (c, g a b)) = some (v2, bs)) : v2 = c := by
  cases hp : p with
  | none => rw [hp] at h; simp at h
  | some a =>
    rw [hp] at h
    simp only [Option.bind_eq_bind, Option.some_bind] at h
    cases hq : q a with
    | none => rw [hq] at h; simp at h
    | some b =>
      rw [hq] at h
      simp only [Option.some_bind, Option.pure_def, Option.some.injEq,
        Prod.mk.injEq] at h
      exact h.1.symm

theorem opt3_const_fst {α β γ δ ε : Type} (p : Option α) (q : α → Option β)
    (r : α → β → Option ε) (c : γ) (g : α → β → ε → δ) (v2 : γ) (bs : δ)
    (h : (do
      let a ← p
      let b ← q a
      let d ← r a b
      pure (c, g a b d)) = some (v2, bs)) : v2 = c := by
  cases hp : p with
  | none => rw [hp] at h; simp at h
  | some a =>
    rw [hp] at h
    simp only [Option.bind_eq_bind, Option.some_bind] at h
    cases hq : q a with
    | none => rw [hq] at h; simp at h
    | some b =>
      rw [hq] at h
      simp only [Option.some_bind] at h
      cases hr : r a b with
      | none => rw [hr] at h; simp at h
      | some d =>
        rw [hr] at h
        simp only [Option.some_bind, Option.pure_def, Option.some.injEq,
          Prod.mk.injEq] at h
        exact h.1.symm

theorem struct_to_binary_parts (obj o2 : UaObject) (bytes : List Byte)
    (h : struct_to_binary obj = some (o2, bytes)) :
    applySwitches obj obj.ua_switches = some o2 ∧ encodeFields o2 o2.ua_types = some bytes :=
  opt_pair_fst (applySwitches obj obj.ua_switches)
    (fun a => encodeFields a a.ua_types) o2 bytes h

theorem applySwitches_frame (sws : List (String × String × Nat)) (o o2 : UaObject)
    (h : applySwitches o sws = some o2) :
    o2.ua_types = o.ua_types ∧ o2.ua_switches = o.ua_switches ∧
      (∀ n, (∀ e ∈ sws, n ≠ e.2.1) → getattr o2 n = getattr o n) := by
  induction sws generalizing o with
  | nil =>
    have ho : o2 = o := by
      rw [show applySwitches o [] = some o from rfl] at h
      injection h with h2
      exact h2.symm
    subst ho
    exact ⟨rfl, rfl, fun n _ => rfl⟩
  | cons e rest ih =>
    obtain ⟨f, Y, j⟩ := e
    rw [applySwitches] at h
    cases hg : getattr o f with
    | none => rw [hg] at h; simp at h
    | some vf =>
      rw [hg] at h
      simp only [Option.bind_eq_bind, Option.some_bind] at h
      cases vf with
      | none =>
        obtain ⟨h2, h3, h4⟩ := ih o h
        exact ⟨h2, h3, fun n hn => h4 n (fun e2 he2 => hn e2 (List.mem_cons_of_mem _ he2))⟩
      | scalar sv =>
        cases hc : getattr o Y with
        | none => rw [hc] at h; simp at h
        | some cv =>
          rw [hc] at h
          simp only [Option.some_bind] at h
          cases hb : orBitP cv j with
          | none => rw [hb] at h; simp at h
          | some cv2 =>
            rw [hb] at h
            simp only [Option.some_bind] at h
            obtain ⟨h2, h3, h4⟩ := ih (setattrF o Y cv2) h
            refine ⟨h2, h3, fun n hn => ?_⟩
            rw [h4 n (fun e2 he2 => hn e2 (List.mem_cons_of_mem _ he2)),
              getattr_setattrF, if_neg (hn (f, Y, j) (by simp))]
      | list lv =>
        cases hc : getattr o Y with
        | none => rw [hc] at h; simp at h
        | some cv =>
          rw [hc] at h
          simp only [Option.some_bind] at h
          cases hb : orBitP cv j with
          | none => rw [hb] at h; simp at h
          | some cv2 =>
            rw [hb] at h
            simp only [Option.some_bind] at h
            obtain ⟨h2, h3, h4⟩ := ih (setattrF o Y cv2) h
            refine ⟨h2, h3, fun n hn => ?_⟩
            rw [h4 n (fun e2 he2 => hn e2 (List.mem_cons_of_mem _ he2)),
              getattr_setattrF, if_neg (hn (f, Y, j) (by simp))]

theorem variant_to_binary_mutation (v v2 : Variant) (bs : List Byte)
    (h : variant_to_binary v = some (v2, bs)) :
    v2 = { v with is_array := v.is_array || isList v.Value } := by
  obtain ⟨vt, val, dims0, arr⟩ := v
  cases dims0 with
  | none =>
    by_cases hc : (arr || isList val) = true
    · have heq : variant_to_binary ⟨vt, val, none, arr⟩ =
        (if (arr || isList val) = true then
          (do
            let eb ← Primitives.Byte.pack (set_bit (VariantType.value vt &&& 63) 7)
            let body ← pack_uatype_array vt (flatten val)
            pure ((⟨vt, val, none, true⟩ : Variant), eb ++ body))
         else
          (do
            let eb ← Primitives.Byte.pack (VariantType.value vt &&& 63)
            let body ← pack_uatype vt val
            pure ((⟨vt, val, none, arr⟩ : Variant), eb ++ body))) := rfl
      rw [heq, if_pos hc] at h
      show v2 = ⟨vt, val, none, arr || isList val⟩
      rw [hc]
      exact opt2_const_fst (Primitives.Byte.pack (set_bit (VariantType.value vt &&& 63) 7))
        (fun _ => pack_uatype_array vt (flatten val)) (⟨vt, val, none, true⟩ : Variant)
        (fun a b => a ++ b) v2 bs h
    · have heq : variant_to_binary ⟨vt, val, none, arr⟩ =
        (if (arr || isList val) = true then
          (do
            let eb ← Primitives.Byte.pack (set_bit (VariantType.value vt &&& 63) 7)
            let body ← pack_uatype_array vt (flatten val)
            pure ((⟨vt, val, none, true⟩ : Variant), eb ++ body))
         else
          (do
            let eb ← Primitives.Byte.pack (VariantType.value vt &&& 63)
            let body ← pack_uatype vt val
            pure ((⟨vt, val, none, arr⟩ : Variant), eb ++ body))) := rfl
      rw [heq, if_neg hc] at h
      have harr : (arr || isList val) = false := by
        cases hx : (arr || isList val) with
        | true => exact absurd hx hc
        | false => rfl
      have h5 : arr = false := (Bool.or_eq_false_iff.mp harr).1
      show v2 = ⟨vt, val, none, arr || isList val⟩
      rw [harr, ← h5]
      exact opt2_const_fst (Primitives.Byte.pack (VariantType.value vt &&& 63))
        (fun _ => pack_uatype vt val) (⟨vt, val, none, arr⟩ : Variant)
        (fun a b => a ++ b) v2 bs h
  | some dims =>
    by_cases hc : (arr || isList val) = true
    · have heq : variant_to_binary ⟨vt, val, some dims, arr⟩ =
        (if (arr || isList val) = true then
          (do
            let eb ← Primitives.Byte.pack (set_bit (set_bit (VariantType.value vt &&& 63) 7) 6)
            let body ← pack_uatype_array vt (flatten val)
            let dimsb ← pack_uatype_array VariantType.Int32
              (PyVal.list (List.map (fun d => PyVal.scalar (Scalar.int32 d)) dims))
            pure ((⟨vt, val, some dims, true⟩ : Variant), eb ++ body ++ dimsb))
         else
          (do
            let eb ← Primitives.Byte.pack (VariantType.value vt &&& 63)
            let body ← pack_uatype vt val
            pure ((⟨vt, val, some dims, arr⟩ : Variant), eb ++ body))) := rfl
      rw [heq, if_pos hc] at h
      show v2 = ⟨vt, val, some dims, arr || isList val⟩
      rw [hc]
      exact opt3_const_fst
        (Primitives.Byte.pack (set_bit (set_bit (VariantType.value vt &&& 63) 7) 6))
        (fun _ => pack_uatype_array vt (flatten val))
        (fun _ _ => pack_uatype_array VariantType.Int32
          (PyVal.list (List.map (fun d => PyVal.scalar (Scalar.int32 d)) dims)))
        (⟨vt, val, some dims, true⟩ : Variant)
        (fun a b d => a ++ b ++ d) v2 bs h
    · have heq : variant_to_binary ⟨vt, val, some dims, arr⟩ =
        (if (arr || isList val) = true then
          (do
            let eb ← Primitives.Byte.pack (set_bit (set_bit (VariantType.value vt &&& 63) 7) 6)
            let body ← pack_uatype_array vt (flatten val)
            let dimsb ← pack_uatype_array VariantType.Int32
              (PyVal.list (List.map (fun d => PyVal.scalar (Scalar.int32 d)) dims))
            pure ((⟨vt, val, some dims, true⟩ : Variant), eb ++ body ++ dimsb))
         else
          (do
            let eb ← Primitives.Byte.pack (VariantType.value vt &&& 63)
            let body ← pack_uatype vt val
            pure ((⟨vt, val, some dims, arr⟩ : Variant), eb ++ body))) := rfl
      rw [heq, if_neg hc] at h
      have harr : (arr || isList val) = false := by
        cases hx : (arr || isList val) with
        | true => exact absurd hx hc
        | false => rfl
      have h5 : arr = false := (Bool.or_eq_false_iff.mp harr).1
      show v2 = ⟨vt, val, some dims, arr || isList val⟩
      rw [harr, ← h5]
      exact opt2_const_fst (Primitives.Byte.pack (VariantType.value vt &&& 63))
        (fun _ => pack_uatype vt val) (⟨vt, val, some dims, arr⟩ : Variant)
        (fun a b => a ++ b) v2 bs h

/-- C5 (corrected): encoding is not pure with respect to its input value.
Amended statement of the actual frame: `variant_to_binary` returns its input
with the `is_array` attribute forced to true exactly when the value is a
list (all other attributes unchanged), and `struct_to_binary` returns its
input with the schema lists unchanged and every attribute that is not a
switch container unchanged; the mutation is confined to `is_array` and to
the switch containers. -/
theorem encoder_attribute_mutation :
    (∀ (v v2 : Variant) (bs : List Byte), variant_to_binary v = some (v2, bs) →
      v2 = { v with is_array := v.is_array || isList v.Value }) ∧
    (∀ (obj o2 : UaObject) (bytes : List Byte), struct_to_binary obj = some (o2, bytes) →
      o2.ua_types = obj.ua_types ∧ o2.ua_switches = obj.ua_switches ∧
        (∀ n, (∀ e ∈ obj.ua_switches, n ≠ e.2.1) → getattr o2 n = getattr obj n)) :=
  ⟨variant_to_binary_mutation,
   fun obj o2 bytes h =>
     applySwitches_frame obj.ua_switches obj o2 (struct_to_binary_parts obj o2 bytes h).1⟩

/-- Witness for C5 at a scalar Int32 variant and a two-field struct whose
optional member is present. -/
theorem encoder_attribute_mutation_witness :
    ((⟨VariantType.Int32, PyVal.scalar (Scalar.int32 7), Option.none, false⟩ : Variant) =
      { (⟨VariantType.Int32, PyVal.scalar (Scalar.int32 7), Option.none, false⟩ : Variant) with
          is_array := false || isList (PyVal.scalar (Scalar.int32 7)) }) ∧
    getattr (⟨[("Encoding", "Byte"), ("Body", "ByteString")], [("Body", ("Encoding", 0))],
        [("Encoding", PyVal.scalar (Scalar.byte 1)),
         ("Body", PyVal.scalar (Scalar.bytes [7]))]⟩ : UaObject) ("Body") =
      getattr (⟨[("Encoding", "Byte"), ("Body", "ByteString")], [("Body", ("Encoding", 0))],
        [("Encoding", PyVal.scalar (Scalar.byte 0)),
         ("Body", PyVal.scalar (Scalar.bytes [7]))]⟩ : UaObject) ("Body") :=
  ⟨encoder_attribute_mutation.1
      ⟨VariantType.Int32, PyVal.scalar (Scalar.int32 7), Option.none, false⟩
      ⟨VariantType.Int32, PyVal.scalar (Scalar.int32 7), Option.none, false⟩
      [6, 7, 0, 0, 0] rfl,
   (encoder_attribute_mutation.2
      ⟨[("Encoding", "Byte"), ("Body", "ByteString")], [("Body", ("Encoding", 0))],
        [("Encoding", PyVal.scalar (Scalar.byte 0)),
         ("Body", PyVal.scalar (Scalar.bytes [7]))]⟩
      ⟨[("Encoding", "Byte"), ("Body", "ByteString")], [("Body", ("Encoding", 0))],
        [("Encoding", PyVal.scalar (Scalar.byte 1)),
         ("Body", PyVal.scalar (Scalar.bytes [7]))]⟩
      [1, 1, 0, 0, 0, 7] rfl).2.2 ("Body") (by decide)⟩

/-- Counterexample to the literal C5: encoding a list-valued variant whose
is_array flag is false returns the variant with is_array mutated to true,
so the encoder does not leave every attribute of its input unchanged. -/
theorem encoder_attribute_mutation_counterexample :
    variant_to_binary
        ⟨VariantType.Int32, PyVal.list [PyVal.scalar (Scalar.int32 1)], Option.none, false⟩ =
      some (⟨VariantType.Int32, PyVal.list [PyVal.scalar (Scalar.int32 1)], Option.none, true⟩,
        [134, 1, 0, 0, 0, 1, 0, 0, 0]) ∧
    (⟨VariantType.Int32, PyVal.list [PyVal.scalar (Scalar.int32 1)],
        Option.none, true⟩ : Variant).is_array ≠
      (⟨VariantType.Int32, PyVal.list [PyVal.scalar (Scalar.int32 1)],
        Option.none, false⟩ : Variant).is_array :=
  ⟨rfl, by decide⟩

/-- C2 (corrected): the switch pass only ORs presence bits into the bitmask
containers and never clears a stale bit, so the spec law holds only when the
controlling bit of an absent field is already clear. Amended statement: on a
well-formed switch table, after a successful encode every unsigned-scalar
attribute X holds its initial integer ORed with the presence mask, and for a
switch entry whose field is absent and whose controlling bit is already
clear in the container, clearing that bit is the identity and the encode of
the adjusted object agrees with the original. -/
theorem struct_switch_bitmask (obj o2 : UaObject) (bytes : List Byte)
    (hdisj : ∀ e ∈ obj.ua_switches, ∀ e2 ∈ obj.ua_switches, e.1 ≠ e2.2.1)
    (hfields : ∀ e ∈ obj.ua_switches, (getattr obj e.1).isSome)
    (hconts : ∀ e ∈ obj.ua_switches, ∃ s n0, getattr obj e.2.1 = some (PyVal.scalar s) ∧
      scalarNat s = some n0)
    (h : struct_to_binary obj = some (o2, bytes)) :
    (∀ X s n0, getattr obj X = some (PyVal.scalar s) → scalarNat s = some n0 →
      getattr o2 X = some (PyVal.scalar (withScalarNat s (n0 ||| maskOf obj X obj.ua_switches)))) ∧
    (∀ f X i s n0, (f, (X, i)) ∈ obj.ua_switches →
      getattr obj f = some PyVal.none →
      getattr obj X = some (PyVal.scalar s) → scalarNat s = some n0 →
      Nat.testBit n0 i = false →
      struct_to_binary (setattrF obj X (PyVal.scalar (withScalarNat s (unset_bit n0 i)))) =
        some (o2, bytes)) := by
  have hsw := (struct_to_binary_parts obj o2 bytes h).1
  obtain ⟨o2c, happ, _, _, _, hchar⟩ :=
    applySwitches_char obj.ua_switches obj hdisj hfields hconts
  rw [happ] at hsw
  injection hsw with hsw2
  subst hsw2
  refine ⟨hchar, fun f X i s n0 _ _ hX hs htb => ?_⟩
  have hub : unset_bit n0 i = n0 := by simp [unset_bit, htb]
  rw [hub, withScalarNat_self s n0 hs, setattrF_self obj X (PyVal.scalar s) hX]
  exact h

/-- Witness for C2: a two-field struct with a present optional member; the
Encoding container, initially 0, ends holding the presence mask. -/
theorem struct_switch_bitmask_witness :
    getattr (⟨[("Encoding", "Byte"), ("Body", "ByteString")], [("Body", ("Encoding", 0))],
        [("Encoding", PyVal.scalar (Scalar.byte 1)),
         ("Body", PyVal.scalar (Scalar.bytes [7, 7]))]⟩ : UaObject) ("Encoding") =
      some (PyVal.scalar (withScalarNat (Scalar.byte 0)
        ((0 : Nat) ||| maskOf
          (⟨[("Encoding", "Byte"), ("Body", "ByteString")], [("Body", ("Encoding", 0))],
            [("Encoding", PyVal.scalar (Scalar.byte 0)),
             ("Body", PyVal.scalar (Scalar.bytes [7, 7]))]⟩ : UaObject)
          ("Encoding") [("Body", ("Encoding", 0))]))) :=
  (struct_switch_bitmask
    ⟨[("Encoding", "Byte"), ("Body", "ByteString")], [("Body", ("Encoding", 0))],
      [("Encoding", PyVal.scalar (Scalar.byte 0)),
       ("Body", PyVal.scalar (Scalar.bytes [7, 7]))]⟩
    ⟨[("Encoding", "Byte"), ("Body", "ByteString")], [("Body", ("Encoding", 0))],
      [("Encoding", PyVal.scalar (Scalar.byte 1)),
       ("Body", PyVal.scalar (Scalar.bytes [7, 7]))]⟩
    [1, 2, 0, 0, 0, 7, 7]
    (by decide)
    (by decide)
    (by
      intro e he
      simp only [List.mem_singleton] at he
      subst he
      exact ⟨Scalar.byte 0, 0, rfl, rfl⟩)
    rfl).1 ("Encoding") (Scalar.byte 0) 0 rfl rfl

/-- Counterexample to the literal C2: a struct whose optional Body is absent
but whose Encoding container already carries the controlling bit encodes to
the byte 1, while the same struct with the bit cleared encodes to the byte
0; bit 0 of the emitted bitmask is set although the field is absent, and the
two encodings differ. -/
theorem struct_switch_bitmask_counterexample :
    struct_to_binary (⟨[("Encoding", "Byte"), ("Body", "ByteString")],
        [("Body", ("Encoding", 0))],
        [("Encoding", PyVal.scalar (Scalar.byte 1)), ("Body", PyVal.none)]⟩ : UaObject) =
      some (⟨[("Encoding", "Byte"), ("Body", "ByteString")], [("Body", ("Encoding", 0))],
        [("Encoding", PyVal.scalar (Scalar.byte 1)), ("Body", PyVal.none)]⟩, [1]) ∧
    struct_to_binary (⟨[("Encoding", "Byte"), ("Body", "ByteString")],
        [("Body", ("Encoding", 0))],
        [("Encoding", PyVal.scalar (Scalar.byte 0)), ("Body", PyVal.none)]⟩ : UaObject) =
      some (⟨[("Encoding", "Byte"), ("Body", "ByteString")], [("Body", ("Encoding", 0))],
        [("Encoding", PyVal.scalar (Scalar.byte 0)), ("Body", PyVal.none)]⟩, [0]) ∧
    ([1] : List Byte) ≠ [0] :=
  ⟨rfl, rfl, by decide⟩

theorem opt_cons_head {α : Type} (p : Option (List α)) (c : α) (bs : List α)
    (h : (do
      let i ← p
      pure (c :: i)) = some bs) : bs.head? = some c := by
  cases hp : p with
  | none => rw [hp] at h; simp at h
  | some i =>
    rw [hp] at h
    simp only [Option.bind_eq_bind, Option.some_bind, Option.pure_def,
      Option.some.injEq] at h
    subst h
    rfl

theorem opt2_cons_head {α β γ : Type} (p : Option α) (q : α → Option β) (c : γ)
    (g : α → β → List γ) (bs : List γ)
    (h : (do
      let a ← p
      let b ← q a
      pure (c :: g a b)) = some bs) : bs.head? = some c := by
  cases hp : p with
  | none => rw [hp] at h; simp at h
  | some a =>
    rw [hp] at h
    simp only [Option.bind_eq_bind, Option.some_bind] at h
    cases hq : q a with
    | none => rw [hq] at h; simp at h
    | some b =>
      rw [hq] at h
      simp only [Option.some_bind, Option.pure_def, Option.some.injEq] at h
      subst h
      rfl

/-- The first emitted byte of a NodeId encoding is the numeric value of the
stored NodeIdType tag, whatever the identifier carries. -/
theorem nodeid_head_tag (n : NodeIdT) (bs : List Byte)
    (h : nodeid_to_binary n = some bs) :
    bs.head? = some (NodeIdType.value n.NodeIdType) := by
  obtain ⟨t, nsi, idf, u, s⟩ := n
  cases t with
  | TwoByte =>
    cases idf with
    | num id => exact opt_cons_head (upack 1 id) (NodeIdType.value NodeIdType.TwoByte) bs h
    | str s2 => exact Option.noConfusion h
    | guid g => exact Option.noConfusion h
    | bytes b => exact Option.noConfusion h
  | FourByte =>
    cases idf with
    | num id =>
      exact opt2_cons_head (upack 1 nsi) (fun _ => upack 2 id)
        (NodeIdType.value NodeIdType.FourByte) (fun a b => a ++ b) bs h
    | str s2 => exact Option.noConfusion h
    | guid g => exact Option.noConfusion h
    | bytes b => exact Option.noConfusion h
  | Numeric =>
    cases idf with
    | num id =>
      exact opt2_cons_head (upack 2 nsi) (fun _ => upack 4 id)
        (NodeIdType.value NodeIdType.Numeric) (fun a b => a ++ b) bs h
    | str s2 => exact Option.noConfusion h
    | guid g => exact Option.noConfusion h
    | bytes b => exact Option.noConfusion h
  | String =>
    cases idf with
    | str s2 =>
      exact opt2_cons_head (upack 2 nsi) (fun _ => Primitives.String.pack s2)
        (NodeIdType.value NodeIdType.String) (fun a b => a ++ b) bs h
    | num id => exact Option.noConfusion h
    | guid g => exact Option.noConfusion h
    | bytes b => exact Option.noConfusion h
  | ByteString =>
    cases idf with
    | bytes b =>
      exact opt2_cons_head (upack 2 nsi) (fun _ => Primitives.Bytes.pack b)
        (NodeIdType.value NodeIdType.ByteString) (fun a b => a ++ b) bs h
    | num id => exact Option.noConfusion h
    | str s2 => exact Option.noConfusion h
    | guid g => exact Option.noConfusion h
  | Guid =>
    cases idf with
    | guid g =>
      exact opt2_cons_head (upack 2 nsi) (fun _ => Primitives.Guid.pack g)
        (NodeIdType.value NodeIdType.Guid) (fun a b => a ++ b) bs h
    | num id => exact Option.noConfusion h
    | str s2 => exact Option.noConfusion h
    | bytes b => exact Option.noConfusion h

/-- C3 (code_bug): the source carries a FIXME recording that
`nodeid_to_binary` never emits the NamespaceUri or ServerIndex suffixes.
Formally, the encoding of any NodeId is identical to the encoding of the
same NodeId with both suffix attributes erased, and its leading byte always
has flag bits 7 and 6 clear, so the claimed suffix emission never occurs and
the decoder cannot recover the fields. -/
theorem nodeid_suffixes_dropped (n : NodeIdT) (e : List Byte)
    (h : nodeid_to_binary n = some e) :
    nodeid_to_binary
        { n with NamespaceUri := Option.none, ServerIndex := Option.none } = some e ∧
    (∀ b, e.head? = some b →
      Nat.testBit b 7 = false ∧ Nat.testBit b 6 = false) := by
  refine ⟨?_, ?_⟩
  · obtain ⟨t, nsi, idf, u, s⟩ := n
    exact h
  · intro b hb
    have hh := nodeid_head_tag n e h
    rw [hh] at hb
    injection hb with hb2
    subst hb2
    have hall : ∀ t : NodeIdType, Nat.testBit (NodeIdType.value t) 7 = false ∧
        Nat.testBit (NodeIdType.value t) 6 = false := by
      intro t
      cases t <;> exact ⟨by decide, by decide⟩
    exact hall n.NodeIdType

/-- Witness for C3: a TwoByte NodeId carrying a NamespaceUri and a
ServerIndex encodes to the same two bytes as the suffix-free NodeId. -/
theorem nodeid_suffixes_dropped_witness :
    nodeid_to_binary
        { (⟨NodeIdType.TwoByte, 0, NodeIdentifier.num 5,
            some [97], some 3⟩ : NodeIdT) with
          NamespaceUri := Option.none, ServerIndex := Option.none } = some [0, 5] :=
  (nodeid_suffixes_dropped
    ⟨NodeIdType.TwoByte, 0, NodeIdentifier.num 5, some [97], some 3⟩ [0, 5] rfl).1

/-- C6 (corrected): `nodeid_to_binary` performs no minimization at all.
Amended statement: the emitted leading byte is always the numeric value of
the NodeIdType stored on the value, whatever smaller forms would admit the
namespace and identifier. -/
theorem nodeid_emits_stored_form (n : NodeIdT) (bs : List Byte)
    (h : nodeid_to_binary n = some bs) :
    bs.head? = some (NodeIdType.value n.NodeIdType) :=
  nodeid_head_tag n bs h

/-- Witness for C6: a Numeric-tagged NodeId encodes with leading byte 2. -/
theorem nodeid_emits_stored_form_witness :
    ([2, 0, 0, 72, 0, 0, 0] : List Byte).head? =
      some (NodeIdType.value
        (⟨NodeIdType.Numeric, 0, NodeIdentifier.num 72,
          Option.none, Option.none⟩ : NodeIdT).NodeIdType) :=
  nodeid_emits_stored_form
    ⟨NodeIdType.Numeric, 0, NodeIdentifier.num 72, Option.none, Option.none⟩
    [2, 0, 0, 72, 0, 0, 0] rfl

/-- Counterexample to the literal C6: namespace 0 with numeric identifier 72
fits the TwoByte form, yet a value stored with the Numeric tag is emitted in
the seven-byte Numeric form, so the encoder does not choose the smallest
admissible form. -/
theorem nodeid_emits_stored_form_counterexample :
    nodeid_to_binary
        (⟨NodeIdType.Numeric, 0, NodeIdentifier.num 72,
          Option.none, Option.none⟩ : NodeIdT) = some [2, 0, 0, 72, 0, 0, 0] ∧
    nodeid_to_binary
        (⟨NodeIdType.TwoByte, 0, NodeIdentifier.num 72,
          Option.none, Option.none⟩ : NodeIdT) = some [0, 72] ∧
    ([2, 0, 0, 72, 0, 0, 0] : List Byte).head? ≠
      some (NodeIdType.value NodeIdType.TwoByte) :=
  ⟨rfl, rfl, by decide⟩

/-- Witness for C1: a scalar Int32 variant round trips through the codec. -/
theorem variant_roundtrip_witness :
    (⟨VariantType.Int32, PyVal.scalar (Scalar.int32 7),
        Option.none, false⟩ : Variant) =
      ⟨VariantType.Int32, PyVal.scalar (Scalar.int32 7), Option.none, false⟩ ∧
    variant_from_binary ([6, 7, 0, 0, 0] ++ []) =
      some (⟨VariantType.Int32, PyVal.scalar (Scalar.int32 7),
        Option.none, false⟩, []) :=
  variant_roundtrip
    ⟨VariantType.Int32, PyVal.scalar (Scalar.int32 7), Option.none, false⟩
    ⟨VariantType.Int32, PyVal.scalar (Scalar.int32 7), Option.none, false⟩
    [6, 7, 0, 0, 0] []
    (Or.inl ⟨rfl, rfl, 7, rfl⟩) rfl

/-- Counterexample to the literal C1: a scalar ExpandedNodeId variant whose
NodeId carries a NamespaceUri encodes without the suffix, so decoding the
encoding yields a different Variant and the round trip fails. -/
theorem variant_roundtrip_counterexample :
    variant_to_binary
        ⟨VariantType.ExpandedNodeId,
          PyVal.scalar (Scalar.nodeid
            ⟨NodeIdType.TwoByte, 0, NodeIdentifier.num 5, some [97], Option.none⟩),
          Option.none, false⟩ =
      some (⟨VariantType.ExpandedNodeId,
          PyVal.scalar (Scalar.nodeid
            ⟨NodeIdType.TwoByte, 0, NodeIdentifier.num 5, some [97], Option.none⟩),
          Option.none, false⟩, [18, 0, 5]) ∧
    variant_from_binary ([18, 0, 5] ++ []) =
      some (⟨VariantType.ExpandedNodeId,
          PyVal.scalar (Scalar.nodeid
            ⟨NodeIdType.TwoByte, 0, NodeIdentifier.num 5, Option.none, Option.none⟩),
          Option.none, false⟩, []) ∧
    (⟨VariantType.ExpandedNodeId,
        PyVal.scalar (Scalar.nodeid
          ⟨NodeIdType.TwoByte, 0, NodeIdentifier.num 5, Option.none, Option.none⟩),
        Option.none, false⟩ : Variant) ≠
      ⟨VariantType.ExpandedNodeId,
        PyVal.scalar (Scalar.nodeid
          ⟨NodeIdType.TwoByte, 0, NodeIdentifier.num 5, some [97], Option.none⟩),
        Option.none, false⟩ :=
  ⟨rfl, rfl, by intro hq; simp at hq⟩

/-- Witness for C4: a one-element Int32 array round trips, with the trailing
buffer preserved. -/
theorem unpack_array_pack_array_witness :
    unpack_array Primitives.Int32.unpack ([1, 0, 0, 0, 5, 0, 0, 0] ++ [9]) =
      some (some [(5 : Int)], [9]) :=
  unpack_array_pack_array Primitives.Int32.pack Primitives.Int32.unpack
    (some [(5 : Int)]) [1, 0, 0, 0, 5, 0, 0, 0] [9] rfl
    (by
      intro l hl a ha eb r2 hp
      exact Int32_roundtrip a eb r2 hp)

/-- Witness for C9: a deficit instance pads with empty lists, and a surplus
instance splits into the full groups followed by the reshaped extras. -/
theorem reshape_tolerant_witness :
    (_reshape [PyVal.scalar (Scalar.int32 1)] [2, 1] =
      _reshape ([PyVal.scalar (Scalar.int32 1)] ++
        List.replicate 1 (PyVal.list [])) [2, 1]) ∧
    (_reshape [PyVal.scalar (Scalar.int32 1), PyVal.scalar (Scalar.int32 2),
        PyVal.scalar (Scalar.int32 3)] [2, 1] = (do
      let g1 ← _reshape (List.take 2 [PyVal.scalar (Scalar.int32 1),
        PyVal.scalar (Scalar.int32 2), PyVal.scalar (Scalar.int32 3)]) [2, 1]
      let g2 ← _reshape (List.drop 2 [PyVal.scalar (Scalar.int32 1),
        PyVal.scalar (Scalar.int32 2), PyVal.scalar (Scalar.int32 3)]) [0, 1]
      pure (g1 ++ g2))) :=
  ⟨(reshape_tolerant [PyVal.scalar (Scalar.int32 1)] 2 [1]).1 (by decide),
   (reshape_tolerant [PyVal.scalar (Scalar.int32 1), PyVal.scalar (Scalar.int32 2),
      PyVal.scalar (Scalar.int32 3)] 2 [1]).2 (by decide) (by decide) (by decide)⟩

/-- Result of `extensionobject_from_binary`: the Python return value is
`None` for the null type id, the decoded registered structure, or a generic
`ua.ExtensionObject` carrying the raw type id, encoding byte and body
bytes. -/
inductive ExtObjResult where
  | absent
  | decoded (v : PyVal)
  | generic (typeid : NodeIdT) (encoding : Byte) (body : Option (List Byte))

/-- Python comparison `typeid.Identifier == 0`: true exactly on a numeric
identifier equal to zero, since a string, bytes or uuid identifier never
equals the integer 0. -/
def identifierIsZero (n : NodeIdT) : Bool :=
  match n.Identifier with
  | NodeIdentifier.num k => decide (k = 0)
  | _ => false

/-- Modelled from the spec: the body phase of `extensionobject_from_binary`
over the `Buffer` class of section 6. The branch `Buffer(b"")` yields an
empty fresh sub-buffer; `data.copy(length)` followed by `data.skip(length)`
yields the next `length` bytes as a fresh sub-buffer while the parent
cursor advances exactly past them, and raises when fewer remain. -/
def readBody (encoding : Byte) (d2 : List Byte) :
    Option (Option (List Byte) × List Byte) :=
  if encoding &&& (1 <<< 0) ≠ 0 then do
    let (len, da) ← Primitives.Int32.unpack d2
    if len < 1 then
      pure (some [], da)
    else do
      let (bb, db) ← readN len.toNat da
      pure (some bb, db)
  else pure (Option.none, d2)

/-- Decoder `extensionobject_from_binary`. The registry
`ua.extension_object_classes` together with the `from_binary` dispatch on
the registered class lives outside the verified sources and is abstracted
as a map `reg` from type ids to body decoders; a registered type with an
absent body raises `UaError`. -/
def extensionobject_from_binary
    (reg : NodeIdT → Option (List Byte → Option PyVal))
    (data : List Byte) : Option (ExtObjResult × List Byte) := do
  let (typeid, d1) ← nodeid_from_binary data
  let (ebs, d2) ← readN 1 d1
  let encoding := fromLE ebs
  let (body, d3) ← readBody encoding d2
  if identifierIsZero typeid = true then
    pure (ExtObjResult.absent, d3)
  else
    match reg typeid with
    | some dec =>
        match body with
        | Option.none => Option.none
        | some bb => do
            let v ← dec bb
            pure (ExtObjResult.decoded v, d3)
    | Option.none => pure (ExtObjResult.generic typeid encoding body, d3)

/-- Modelled from the spec: the null NodeId produced by a fresh
`ua.NodeId()`, namespace 0 with numeric identifier 0 in two-byte form
(spec section 4.3). -/
def nullNodeId : NodeIdT :=
  ⟨NodeIdType.TwoByte, 0, NodeIdentifier.num 0, Option.none, Option.none⟩

/-- Input universe of `extensionobject_to_binary`: the absent sentinel, an
`ua.ExtensionObject` instance, or an object of a registered class whose
type id the registry `ua.extension_object_ids` resolves (the registry lives
outside the verified sources, so the resolved id accompanies the value). -/
inductive ExtObjInput where
  | absent
  | extobj (o : UaObject)
  | registered (typeId : NodeIdT) (o : UaObject)

/-- Encoder `extensionobject_to_binary`: an `ExtensionObject` instance is
encoded as a plain structure; the absent sentinel encodes the null NodeId
and encoding byte 0 with no body; a registered object encodes its type id,
encoding byte 1, and the length-prefixed body, the body being dropped when
the Python truthiness test `if Body` fails on the empty byte string. -/
def extensionobject_to_binary : ExtObjInput → Option (List Byte)
  | ExtObjInput.absent => do
      let tb ← nodeid_to_binary nullNodeId
      let eb ← Primitives.Byte.pack 0
      pure (tb ++ eb)
  | ExtObjInput.extobj o => do
      let (_, pkt) ← struct_to_binary o
      pure pkt
  | ExtObjInput.registered tid o => do
      let (_, body) ← struct_to_binary o
      let tb ← nodeid_to_binary tid
      let eb ← Primitives.Byte.pack 1
      if body = [] then pure (tb ++ eb)
      else do
        let bb ← Primitives.Bytes.pack (some body)
        pure (tb ++ eb ++ bb)

theorem readBody_clear (encoding : Byte) (d2 : List Byte)
    (h : encoding &&& 1 = 0) : readBody encoding d2 = some (Option.none, d2) := by
  unfold readBody
  have h10 : (1 : Nat) <<< 0 = 1 := rfl
  rw [h10, if_neg (by simp [h])]
  rfl

theorem readBody_take (encoding : Byte) (d2 : List Byte) (len : Int)
    (da bb rest : List Byte)
    (hbit : encoding &&& 1 ≠ 0)
    (hlen : Primitives.Int32.unpack d2 = some (len, da))
    (hge : 1 ≤ len)
    (hsplit : da = bb ++ rest)
    (hbb : bb.length = len.toNat) :
    readBody encoding d2 = some (some bb, rest) := by
  unfold readBody
  have h10 : (1 : Nat) <<< 0 = 1 := rfl
  rw [h10, if_pos hbit, hlen]
  simp only [Option.bind_eq_bind, Option.some_bind]
  rw [if_neg (by omega)]
  rw [hsplit, readN_exact len.toNat bb rest hbb]
  rfl

theorem readBody_short (encoding : Byte) (d2 : List Byte) (len : Int)
    (da : List Byte)
    (hbit : encoding &&& 1 ≠ 0)
    (hlen : Primitives.Int32.unpack d2 = some (len, da))
    (hlt : len < 1) :
    readBody encoding d2 = some (some [], da) := by
  unfold readBody
  have h10 : (1 : Nat) <<< 0 = 1 := rfl
  rw [h10, if_pos hbit, hlen]
  simp only [Option.bind_eq_bind, Option.some_bind]
  rw [if_pos hlt]
  rfl

/-- Head phase of the decoder when the body phase yields no body: a
registered type raises, an unregistered type produces the generic object
with an absent body. -/
theorem extobj_steps_nobody
    (reg : NodeIdT → Option (List Byte → Option PyVal))
    (data d2 : List Byte) (typeid : NodeIdT) (encoding : Byte) (d3 : List Byte)
    (hnid : nodeid_from_binary data = some (typeid, encoding :: d2))
    (hbody : readBody encoding d2 = some (Option.none, d3)) :
    extensionobject_from_binary reg data =
      (if identifierIsZero typeid = true then
        some (ExtObjResult.absent, d3)
      else
        match reg typeid with
        | some _ => Option.none
        | Option.none =>
            some (ExtObjResult.generic typeid encoding Option.none, d3)) := by
  unfold extensionobject_from_binary
  rw [hnid]
  simp only [Option.bind_eq_bind, Option.some_bind]
  rw [readN_one]
  simp only [Option.some_bind]
  rw [fromLE_one, hbody]
  simp only [Option.some_bind]
  rfl

/-- Head phase of the decoder when the body phase yields a body buffer: a
registered type decodes it, an unregistered type stores the raw bytes. -/
theorem extobj_steps_body
    (reg : NodeIdT → Option (List Byte → Option PyVal))
    (data d2 : List Byte) (typeid : NodeIdT) (encoding : Byte)
    (bb d3 : List Byte)
    (hnid : nodeid_from_binary data = some (typeid, encoding :: d2))
    (hbody : readBody encoding d2 = some (some bb, d3)) :
    extensionobject_from_binary reg data =
      (if identifierIsZero typeid = true then
        some (ExtObjResult.absent, d3)
      else
        match reg typeid with
        | some dec => do
            let v ← dec bb
            pure (ExtObjResult.decoded v, d3)
        | Option.none =>
            some (ExtObjResult.generic typeid encoding (some bb), d3)) := by
  unfold extensionobject_from_binary
  rw [hnid]
  simp only [Option.bind_eq_bind, Option.some_bind]
  rw [readN_one]
  simp only [Option.some_bind]
  rw [fromLE_one, hbody]
  simp only [Option.some_bind]
  rfl

/-- C7 (confirmed): for a registered nonzero type id, an absent body is a
decode error, and a present body of declared length at least 1 is decoded
by the registered decoder from exactly the declared bytes, the parent
buffer resuming right after them whatever the inner decoder does. -/
theorem extobj_registered_decode
    (reg : NodeIdT → Option (List Byte → Option PyVal))
    (dec : List Byte → Option PyVal)
    (data d2 : List Byte) (typeid : NodeIdT) (encoding : Byte)
    (hnid : nodeid_from_binary data = some (typeid, encoding :: d2))
    (hreg : reg typeid = some dec)
    (hzero : identifierIsZero typeid = false) :
    (encoding &&& 1 = 0 → extensionobject_from_binary reg data = Option.none) ∧
    (∀ (len : Int) (da bb rest : List Byte),
      encoding &&& 1 ≠ 0 →
      Primitives.Int32.unpack d2 = some (len, da) →
      1 ≤ len →
      da = bb ++ rest →
      bb.length = len.toNat →
      extensionobject_from_binary reg data = (do
        let v ← dec bb
        pure (ExtObjResult.decoded v, rest))) := by
  constructor
  · intro hbit
    rw [extobj_steps_nobody reg data d2 typeid encoding d2 hnid
        (readBody_clear encoding d2 hbit),
      if_neg (by simp [hzero]), hreg]
  · intro len da bb rest hbit hlen hge hsplit hbb
    rw [extobj_steps_body reg data d2 typeid encoding bb rest hnid
        (readBody_take encoding d2 len da bb rest hbit hlen hge hsplit hbb),
      if_neg (by simp [hzero]), hreg]

/-- Registry stub for concrete decodes: every type id is registered, the
decoder storing the raw body bytes it was handed. -/
def regAll : NodeIdT → Option (List Byte → Option PyVal) :=
  fun _ => some (fun bs => some (PyVal.scalar (Scalar.bytes bs)))

/-- Witness for C7: a two-byte type id, encoding bit 0 set and declared
length 2 decode the two body bytes with the trailing byte preserved, and
the same type id with encoding byte 0 is a decode error. -/
theorem extobj_registered_decode_witness :
    extensionobject_from_binary regAll [0, 5, 1, 2, 0, 0, 0, 9, 9, 7] =
      some (ExtObjResult.decoded (PyVal.scalar (Scalar.bytes [9, 9])), [7]) ∧
    extensionobject_from_binary regAll [0, 5, 0] = Option.none :=
  ⟨(extobj_registered_decode regAll
      (fun bs => some (PyVal.scalar (Scalar.bytes bs)))
      [0, 5, 1, 2, 0, 0, 0, 9, 9, 7] [2, 0, 0, 0, 9, 9, 7]
      ⟨NodeIdType.TwoByte, 0, NodeIdentifier.num 5, Option.none, Option.none⟩ 1
      rfl rfl rfl).2 2 [9, 9, 7] [9, 9] [7] (by decide) rfl (by decide) rfl rfl,
   (extobj_registered_decode regAll
      (fun bs => some (PyVal.scalar (Scalar.bytes bs)))
      [0, 5, 0] []
      ⟨NodeIdType.TwoByte, 0, NodeIdentifier.num 5, Option.none, Option.none⟩ 0
      rfl rfl rfl).1 (by decide)⟩

/-- C8 (confirmed): the absent sentinel encodes to the three bytes 00 00 00,
and any input whose parsed type id has numeric identifier 0 decodes to the
absent sentinel whatever the encoding byte, once the body phase succeeds. -/
theorem extobj_null_roundtrip :
    extensionobject_to_binary ExtObjInput.absent = some [0, 0, 0] ∧
    (∀ (reg : NodeIdT → Option (List Byte → Option PyVal))
        (data d2 d3 : List Byte) (typeid : NodeIdT) (encoding : Byte)
        (body : Option (List Byte)),
      nodeid_from_binary data = some (typeid, encoding :: d2) →
      identifierIsZero typeid = true →
      readBody encoding d2 = some (body, d3) →
      extensionobject_from_binary reg data = some (ExtObjResult.absent, d3)) := by
  constructor
  · rfl
  · intro reg data d2 d3 typeid encoding body hnid hid hbody
    cases body with
    | none =>
      rw [extobj_steps_nobody reg data d2 typeid encoding d3 hnid hbody, if_pos hid]
    | some bb =>
      rw [extobj_steps_body reg data d2 typeid encoding bb d3 hnid hbody, if_pos hid]

/-- Witness for C8 at a null type id with the nonzero encoding byte 37 and
an absent-length body. -/
theorem extobj_null_roundtrip_witness :
    extensionobject_from_binary regAll [0, 0, 37, 255, 255, 255, 255] =
      some (ExtObjResult.absent, []) :=
  extobj_null_roundtrip.2 regAll [0, 0, 37, 255, 255, 255, 255]
    [255, 255, 255, 255] []
    ⟨NodeIdType.TwoByte, 0, NodeIdentifier.num 0, Option.none, Option.none⟩ 37
    (some []) rfl rfl rfl

/-- C10 (confirmed): with encoding bit 0 set and a declared length below 1,
the body phase yields an empty fresh sub-buffer rather than no body, so a
registered type id does not raise the missing-body error but decodes the
registered structure from zero bytes. -/
theorem extobj_short_body
    (reg : NodeIdT → Option (List Byte → Option PyVal))
    (dec : List Byte → Option PyVal)
    (data d2 : List Byte) (typeid : NodeIdT) (encoding : Byte)
    (len : Int) (da : List Byte)
    (hnid : nodeid_from_binary data = some (typeid, encoding :: d2))
    (hbit : encoding &&& 1 ≠ 0)
    (hlen : Primitives.Int32.unpack d2 = some (len, da))
    (hlt : len < 1) :
    readBody encoding d2 = some (some [], da) ∧
    (reg typeid = some dec → identifierIsZero typeid = false →
      extensionobject_from_binary reg data = (do
        let v ← dec []
        pure (ExtObjResult.decoded v, da))) := by
  have hb := readBody_short encoding d2 len da hbit hlen hlt
  refine ⟨hb, fun hreg hzero => ?_⟩
  rw [extobj_steps_body reg data d2 typeid encoding [] da hnid hb,
    if_neg (by simp [hzero]), hreg]

/-- Witness for C10: length prefix -1 with encoding bit 0 set hands the
registered decoder zero bytes instead of raising. -/
theorem extobj_short_body_witness :
    readBody 1 [255, 255, 255, 255, 8] = some (some [], [8]) ∧
    extensionobject_from_binary regAll [0, 5, 1, 255, 255, 255, 255, 8] =
      some (ExtObjResult.decoded (PyVal.scalar (Scalar.bytes [])), [8]) :=
  ⟨(extobj_short_body regAll
      (fun bs => some (PyVal.scalar (Scalar.bytes bs)))
      [0, 5, 1, 255, 255, 255, 255, 8] [255, 255, 255, 255, 8]
      ⟨NodeIdType.TwoByte, 0, NodeIdentifier.num 5, Option.none, Option.none⟩ 1
      (-1) [8] rfl (by decide) (by decide) (by decide)).1,
   (extobj_short_body regAll
      (fun bs => some (PyVal.scalar (Scalar.bytes bs)))
      [0, 5, 1, 255, 255, 255, 255, 8] [255, 255, 255, 255, 8]
      ⟨NodeIdType.TwoByte, 0, NodeIdentifier.num 5, Option.none, Option.none⟩ 1
      (-1) [8] rfl (by decide) (by decide) (by decide)).2 rfl rfl⟩

end OpcUa
